import Mathlib

/-!
Shallow embedding of the statistical-arbitrage pair-trading repository
(`utils.py`, `pair_selection.py`, `trading_strategy.py`, `backtest.py`).

Price series are modelled as `List ℝ` (IEEE doubles idealised as reals);
a price panel is an ordered association list from instrument name to its
price column.  External library calls (`statsmodels.coint`) are modelled as
oracle parameters; deterministic numerics (`np.polyfit` degree-1 slopes,
pandas rolling statistics) are embedded by their closed-form definitions.
Where IEEE special values decide control flow (`np.log` of a non-positive
argument inside `_calculate_half_life`), the embedding makes the float
semantics explicit, as documented at the definition.
-/

namespace StatArb

noncomputable section

/-- Sum of pairwise products of two lists, `sum (x * y)` over `zip x y`;
the building block of the degree-1 `np.polyfit` slope. -/
def dotL (x y : List ℝ) : ℝ := ((x.zip y).map fun q => q.1 * q.2).sum

/-- Slope returned by `np.polyfit(x, y, 1)[0]`: the ordinary-least-squares
slope of `y` against `x` with intercept, in closed form
`(n·Σxy − Σx·Σy) / (n·Σx² − (Σx)²)`. -/
def polyfitSlope (x y : List ℝ) : ℝ :=
  let n : ℝ := x.length
  (n * dotL x y - x.sum * y.sum) / (n * dotL x x - x.sum * x.sum)

/-- Least-squares slope in the centered textbook form
`Σ(x−x̄)(y−ȳ) / Σ(x−x̄)²`; used as the specification-side reading of
"simple least-squares on the two derived series". -/
def lsqSlope (x y : List ℝ) : ℝ :=
  let xbar := x.sum / x.length
  let ybar := y.sum / y.length
  (((x.zip y).map fun q => (q.1 - xbar) * (q.2 - ybar)).sum) /
    ((x.map fun a => (a - xbar) * (a - xbar)).sum)

/-- `np.roll(a, 1)`: rotates the array right by one position. -/
def roll1 (l : List ℝ) : List ℝ :=
  match l.getLast? with
  | none => []
  | some x => x :: l.dropLast

/-- Half-life value computed by `PairSelector._calculate_half_life` from the
fitted AR(1) coefficient `gamma`.  The source computes
`np.log(2) / np.log(1 + gamma)` when `gamma < 0` and `np.inf` otherwise;
the IEEE semantics of `np.log` are made explicit:
for `1 + gamma > 0` the quotient is an ordinary real,
for `1 + gamma = 0` we get `log(2) / (-inf) = -0.0` (modelled as `some 0`),
and for `1 + gamma < 0` we get `log(2) / NaN = NaN` (modelled as `none`). -/
def halfLifeOfGamma (gamma : ℝ) : Option EReal :=
  if gamma < 0 then
    if 0 < 1 + gamma then some (((Real.log 2 / Real.log (1 + gamma) : ℝ) : EReal))
    else if 1 + gamma = 0 then some 0
    else none
  else some ⊤

/-- `PairSelector._calculate_half_life`: builds the lagged spread via
`np.roll(spread, 1)[1:]`, the one-step change, fits
`delta_spread = gamma * lag_spread + eps` by `np.polyfit`, and maps
`gamma` through `halfLifeOfGamma`. -/
def calculateHalfLife (spread : List ℝ) : Option EReal :=
  let lagSpread := (roll1 spread).tail
  let spread1 := spread.tail
  let deltaSpread := (spread1.zip lagSpread).map fun q => q.1 - q.2
  let gamma := polyfitSlope lagSpread deltaSpread
  halfLifeOfGamma gamma

/-- Specification-side AR(1) coefficient: least-squares fit of the one-step
spread change against the lagged spread level (the lag is the series with
its final observation dropped, the change is the pairwise difference;
both one observation shorter than the input). -/
def specGamma (spread : List ℝ) : ℝ :=
  lsqSlope spread.dropLast ((spread.tail.zip spread.dropLast).map fun q => q.1 - q.2)

/-- Specification-side half-life: `ln 2 / ln (1 + γ)` for `γ < 0` (with the
same explicit float reading of `ln` at non-positive arguments) and `+∞`
for `γ ≥ 0`, where `γ` is `specGamma`. -/
def specHalfLife (spread : List ℝ) : Option EReal :=
  halfLifeOfGamma (specGamma spread)

/-- Statistics recorded for an accepted pair in `PairSelector.pair_stats`.
The field `hedge` models the stored `hedge_ratio` (the `np.polyfit` slope of
the second price series against the first). -/
structure PairStats where
  p_value : ℝ
  hedge : ℝ
  half_life : Option EReal

/-- Configuration of `PairSelector.__init__`. The Python parameters are
finite floats; `max_half_life` is therefore a real number here. -/
structure PairSelector where
  significance_level : ℝ
  min_half_life : ℝ
  max_half_life : ℝ

/-- A price panel: the columns of the `pandas.DataFrame`, in column order. -/
def Panel := List (String × List ℝ)

/-- All 2-combinations of a list in enumeration order, as produced by
`itertools.combinations(columns, 2)`. -/
def combinations2 {α : Type} : List α → List (α × α)
  | [] => []
  | x :: xs => (xs.map fun y => (x, y)) ++ combinations2 xs

/-- `utils.test_cointegration`: runs the Engle-Granger test (the external
`statsmodels.coint`, modelled by the oracle `cointP` giving the p-value) and
compares the p-value with the significance level. -/
def testCointegration (cointP : List ℝ → List ℝ → ℝ) (x y : List ℝ)
    (significance_level : ℝ) : Prop × ℝ :=
  let p_value := cointP x y
  (p_value < significance_level, p_value)

/-- The half-life acceptance check
`self.min_half_life <= half_life <= self.max_half_life` of
`find_cointegrated_pairs`.  A chained float comparison involving NaN
(modelled as `none`) is false; `+∞` compares as `⊤` in `EReal`. -/
def halfLifeAccept (sel : PairSelector) (hl : Option EReal) : Prop :=
  match hl with
  | none => False
  | some h => (sel.min_half_life : EReal) ≤ h ∧ h ≤ (sel.max_half_life : EReal)

open Classical in
/-- One iteration of the loop body of `PairSelector.find_cointegrated_pairs`
on a candidate column pair: test cointegration, estimate the hedge ratio by
`np.polyfit(price1, price2, 1)[0]`, form the spread, compute the half-life,
and accept only if it lies in the configured window. -/
def screenPair (cointP : List ℝ → List ℝ → ℝ) (sel : PairSelector)
    (c : (String × List ℝ) × (String × List ℝ)) :
    Option ((String × String) × PairStats) :=
  let price1 := c.1.2
  let price2 := c.2.2
  let t := testCointegration cointP price1 price2 sel.significance_level
  if t.1 then
    let hedge := polyfitSlope price1 price2
    let spread := (price2.zip price1).map fun q => q.1 - hedge * q.2
    let half_life := calculateHalfLife spread
    if halfLifeAccept sel half_life then
      some ((c.1.1, c.2.1), ⟨t.2, hedge, half_life⟩)
    else none
  else none

/-- `PairSelector.find_cointegrated_pairs`: screens every 2-combination of
panel columns, collecting the accepted pairs together with their recorded
statistics (the pair list and the `pair_stats` entries grow in lock step). -/
def findCointegratedPairs (cointP : List ℝ → List ℝ → ℝ) (sel : PairSelector)
    (panel : Panel) : List ((String × String) × PairStats) :=
  (combinations2 panel).filterMap (screenPair cointP sel)

/-- The list `self.pairs` returned by `find_cointegrated_pairs`. -/
def selectedPairs (cointP : List ℝ → List ℝ → ℝ) (sel : PairSelector)
    (panel : Panel) : List (String × String) :=
  (findCointegratedPairs cointP sel panel).map fun e => e.1

/-- The dictionary `self.pair_stats`, keyed by the string `"stock1_stock2"`. -/
def pairStatsMap (cointP : List ℝ → List ℝ → ℝ) (sel : PairSelector)
    (panel : Panel) : List (String × PairStats) :=
  (findCointegratedPairs cointP sel panel).map fun e =>
    (e.1.1 ++ "_" ++ e.1.2, e.2)

/-- `PairSelector.get_hedge_ratio`: looks the pair up under the
`"{stock1}_{stock2}"` key, then under the reversed key (returning the
reciprocal of the stored ratio), and raises `ValueError` otherwise. -/
def getHedge (stats : List (String × PairStats)) (stock1 stock2 : String) :
    Except String ℝ :=
  match stats.lookup (stock1 ++ "_" ++ stock2) with
  | some st => Except.ok st.hedge
  | none =>
    match stats.lookup (stock2 ++ "_" ++ stock1) with
    | some st => Except.ok (1 / st.hedge)
    | none =>
      Except.error ("Pair " ++ stock1 ++ "_" ++ stock2 ++
        " not found in pair statistics")

/-- The hedge-ratio lookup inside `PortfolioStrategy.backtest`:
`hedge_ratios.get(pair_key, 1.0)` substitutes a default of `1.0`
when the `"{stock1}_{stock2}"` key is absent. -/
def backtestHedge (hr : List (String × ℝ)) (stock1 stock2 : String) : ℝ :=
  ((hr.lookup (stock1 ++ "_" ++ stock2)).getD 1)

/-- The trailing observation window ending at index `i` used by pandas
`rolling(window=w)`: the last `w` elements of `s.take (i+1)`. -/
def windowSlice (s : List ℝ) (w i : ℕ) : List ℝ :=
  (s.take (i + 1)).drop (i + 1 - w)

/-- Mean of the trailing window (`rolling(window=w).mean()` at index `i`,
once the window is complete). -/
def windowMean (s : List ℝ) (w i : ℕ) : ℝ :=
  (windowSlice s w i).sum / w

/-- Sample standard deviation of the trailing window
(`rolling(window=w).std()` at index `i`, pandas default `ddof = 1`). -/
def windowStd (s : List ℝ) (w i : ℕ) : ℝ :=
  Real.sqrt (((windowSlice s w i).map fun x =>
    (x - windowMean s w i) * (x - windowMean s w i)).sum / ((w - 1 : ℕ) : ℝ))

/-- `pd.Series(spread).rolling(window).mean().values`: `NaN` (modelled as
`none`) until the window is fully populated, the window mean afterwards. -/
def rollingMean (s : List ℝ) (w : ℕ) : List (Option ℝ) :=
  (List.range s.length).map fun i =>
    if w ≤ i + 1 then some (windowMean s w i) else none

/-- `pd.Series(spread).rolling(window).std().values`. -/
def rollingStd (s : List ℝ) (w : ℕ) : List (Option ℝ) :=
  (List.range s.length).map fun i =>
    if w ≤ i + 1 then some (windowStd s w i) else none

/-- `utils.calculate_zscore`: a zero array of the spread's length whose
entries from index `window` onwards are overwritten with
`(spread - rolling_mean) / rolling_std` (slice assignment
`zscore[window:] = ...`; indices below `window` keep their zero). -/
def calculateZscore (spread : List ℝ) (window : ℕ) : List ℝ :=
  (List.range spread.length).map fun i =>
    if i < window then 0
    else (spread.getD i 0 - (((rollingMean spread window).getD i none).getD 0)) /
      (((rollingStd spread window).getD i none).getD 0)

/-- Specification-side z-score at an index with a complete trailing window:
`(spread − rolling_mean) / rolling_std` of that window. -/
def specZscoreAt (spread : List ℝ) (window i : ℕ) : ℝ :=
  (spread.getD i 0 - windowMean spread window i) / windowStd spread window i

/-- Configuration of `PairTradingStrategy.__init__`. -/
structure StrategyConfig where
  entry_threshold : ℝ
  exit_threshold : ℝ
  stop_loss_threshold : ℝ
  lookback_period : ℕ
  max_position_days : ℕ

/-- The state carried across iterations of the signal loop of
`PairTradingStrategy.generate_signals`: the two positions written at the
previous index and the mutable `days_in_position` counter. -/
structure SigState where
  p1 : ℝ
  p2 : ℝ
  days : ℕ

open Classical in
/-- One iteration of the signal loop at z-score `z`: entry from flat on a
threshold crossing (days counter set to 1), otherwise increment the days
counter and exit to flat on mean reversion, stop loss, or when the
incremented counter reaches `max_position_days` (counter reset to 0),
else carry the position forward. -/
def stepSignal (cfg : StrategyConfig) (hedge z : ℝ) (s : SigState) : SigState :=
  if s.p1 = 0 ∧ s.p2 = 0 then
    if z < -cfg.entry_threshold then ⟨1, -hedge, 1⟩
    else if cfg.entry_threshold < z then ⟨-1, hedge, 1⟩
    else s
  else
    let days := s.days + 1
    let exitRevert := (0 < s.p1 ∧ -cfg.exit_threshold < z) ∨
      (s.p1 < 0 ∧ z < cfg.exit_threshold)
    let exitStop := (0 < s.p1 ∧ z < -cfg.stop_loss_threshold) ∨
      (s.p1 < 0 ∧ cfg.stop_loss_threshold < z)
    let exitMax := cfg.max_position_days ≤ days
    if exitRevert ∨ exitStop ∨ exitMax then ⟨0, 0, 0⟩
    else ⟨s.p1, s.p2, days⟩

/-- Iterates `stepSignal` over the z-scores from index `lookback_period`
onwards, emitting the pair of positions written at each index. -/
def runSignals (cfg : StrategyConfig) (hedge : ℝ) :
    List ℝ → SigState → List (ℝ × ℝ)
  | [], _ => []
  | z :: zs, s =>
    let s1 := stepSignal cfg hedge z s
    (s1.p1, s1.p2) :: runSignals cfg hedge zs s1

/-- `PairTradingStrategy.generate_signals`: spread, z-score and the two
position arrays.  Positions are zero-initialised; the loop runs for
`t in range(lookback_period, n)` starting from the all-flat state. -/
def generateSignals (cfg : StrategyConfig) (price1 price2 : List ℝ)
    (hedge : ℝ) : List ℝ × List ℝ × List ℝ × List ℝ :=
  let spread := (price2.zip price1).map fun q => q.1 - hedge * q.2
  let zscore := calculateZscore spread cfg.lookback_period
  let emitted := runSignals cfg hedge (zscore.drop cfg.lookback_period) ⟨0, 0, 0⟩
  let pad := List.replicate (min cfg.lookback_period spread.length) (0 : ℝ)
  (spread, zscore, pad ++ emitted.map fun q => q.1, pad ++ emitted.map fun q => q.2)

/-- Elementwise sum of two equal-length arrays. -/
def addL (x y : List ℝ) : List ℝ := (x.zip y).map fun q => q.1 + q.2

/-- Elementwise product of two equal-length arrays. -/
def mulL (x y : List ℝ) : List ℝ := (x.zip y).map fun q => q.1 * q.2

/-- The daily simple-return array of a price series: a zero at index 0 and
`(p[t] − p[t−1]) / p[t−1]` afterwards. -/
def priceChanges (p : List ℝ) : List ℝ :=
  match p with
  | [] => []
  | _ :: _ => 0 :: ((p.tail.zip p.dropLast).map fun q => (q.1 - q.2) / q.2)

/-- `np.cumprod(1 + l) - 1`: the running compounding product. -/
def cumReturns (l : List ℝ) : List ℝ :=
  (((l.map fun r => 1 + r).scanl (fun a b => a * b) 1).tail).map fun a => a - 1

/-- `PairTradingStrategy.calculate_returns`: the strategy's daily returns
`position[:-1] * price_change[1:]` summed over both legs with a zero
prepended (`np.insert(daily_returns, 0, 0)`), and their compounding
cumulative product. -/
def calculateReturns (price1 price2 position1 position2 : List ℝ) :
    List ℝ × List ℝ :=
  let pc1 := priceChanges price1
  let pc2 := priceChanges price2
  let daily := (0 : ℝ) ::
    addL (mulL position1.dropLast pc1.tail) (mulL position2.dropLast pc2.tail)
  (daily, cumReturns daily)

/-- Arithmetic mean of an array (`np.mean`). -/
def meanL (l : List ℝ) : ℝ := l.sum / l.length

/-- Population standard deviation (`np.std`, `ddof = 0`). -/
def stdPop (l : List ℝ) : ℝ :=
  Real.sqrt ((l.map fun x => (x - meanL l) * (x - meanL l)).sum / l.length)

open Classical in
/-- `utils.calculate_sharpe_ratio` with zero risk-free rate: zero for an
empty series or zero standard deviation, else annualised mean over std. -/
def calculateSharpe (returns : List ℝ) : ℝ :=
  if returns.length = 0 ∨ stdPop returns = 0 then 0
  else meanL returns / stdPop returns * Real.sqrt 252

/-- `np.maximum.accumulate`: the running maximum. -/
def runningMax (l : List ℝ) : List ℝ :=
  match l with
  | [] => []
  | x :: xs => xs.scanl max x

open Classical in
/-- One drawdown entry `(cumulative − running_max) / running_max` under IEEE
float division: `none` is the NaN `0.0 / 0.0`, `⊥`/`⊤` the infinities from a
nonzero numerator over the zero running maximum, and a real otherwise. -/
def drawdownEntry (v m : ℝ) : Option EReal :=
  if m = 0 then
    if v - m = 0 then none
    else if v - m < 0 then some ⊥ else some ⊤
  else some (((v - m) / m : ℝ) : EReal)

/-- The pairwise minimum `np.min` reduces with: NaN (`none`) propagates. -/
def minF (a b : Option EReal) : Option EReal :=
  match a, b with
  | some x, some y => some (min x y)
  | _, _ => none

/-- `np.min` of a nonempty float array with NaN propagation (the empty
array raises in numpy; the source's length guard keeps it unreached). -/
def listMinF : List (Option EReal) → Option EReal
  | [] => none
  | x :: xs => xs.foldl minF x

open Classical in
/-- `utils.calculate_max_drawdown`: 0.0 for an empty input, otherwise the
absolute value of the most negative relative drawdown
`(cumulative − running_max) / running_max` under IEEE semantics: `none`
when the reduction hits a NaN (as on an all-zero curve, whose entries are
all `0.0 / 0.0`), since `abs` keeps NaN. -/
def calculateMaxDrawdown (cumulative : List ℝ) : Option EReal :=
  if cumulative.length = 0 then some 0
  else
    let rm := runningMax cumulative
    let drawdown := (cumulative.zip rm).map fun q => drawdownEntry q.1 q.2
    (listMinF drawdown).map fun x => max x (-x)

open Classical in
/-- `np.where(returns != 0, 1, 0)`: the nonzero indicator array. -/
def nonzeroIndicator (l : List ℝ) : List ℤ :=
  l.map fun x => if x ≠ 0 then 1 else 0

/-- `np.diff`: pairwise differences of consecutive elements. -/
def diffL (l : List ℤ) : List ℤ :=
  (l.tail.zip l.dropLast).map fun q => q.1 - q.2

/-- `np.where(l == v)[0]`: the ascending indices where `l` equals `v`. -/
def whereIdx (l : List ℤ) (v : ℤ) : List ℕ :=
  (List.range l.length).filter fun i => l.getD i 0 = v

/-- `trade_starts` of `_calculate_performance_metrics`: the indices right
after a 0 → 1 transition of the nonzero indicator. -/
def tradeStarts (returns : List ℝ) : List ℕ :=
  (whereIdx (diffL (nonzeroIndicator returns)) 1).map fun i => i + 1

/-- `trade_ends` before the length fix-up: indices right after a 1 → 0
transition of the nonzero indicator. -/
def tradeEnds0 (returns : List ℝ) : List ℕ :=
  (whereIdx (diffL (nonzeroIndicator returns)) (-1)).map fun i => i + 1

open Classical in
/-- `trade_ends` after the fix-up appending `len(returns) - 1` when there is
one more start than end. -/
def tradeEnds (returns : List ℝ) : List ℕ :=
  if (tradeEnds0 returns).length < (tradeStarts returns).length then
    tradeEnds0 returns ++ [returns.length - 1]
  else tradeEnds0 returns

/-- `trade_returns`: for each zipped `(start, end)` pair the compounded
return `(1 + returns[start:end+1]).prod() - 1` over the Python slice. -/
def tradeReturns (returns : List ℝ) : List ℝ :=
  ((tradeStarts returns).zip (tradeEnds returns)).map fun se =>
    (((returns.take (se.2 + 1)).drop se.1).map fun r => 1 + r).prod - 1

open Classical in
/-- `win_rate`: `np.mean([r > 0 for r in trade_returns])` when any trades
were detected, else 0. -/
def winRate (returns : List ℝ) : ℝ :=
  let tr := tradeReturns returns
  if tr = [] then 0
  else ((tr.map fun r => if 0 < r then (1 : ℝ) else 0).sum) / tr.length

/-- The record returned by
`PortfolioStrategy._calculate_performance_metrics`. -/
structure PerformanceMetrics where
  total_return : ℝ
  annualized_return : ℝ
  sharpe : ℝ
  max_drawdown : Option EReal
  win_rate : ℝ
  num_trades : ℕ

/-- `PortfolioStrategy._calculate_performance_metrics`. -/
def calculatePerformanceMetrics (returns : List ℝ) : PerformanceMetrics :=
  let cumulative := cumReturns returns
  let total := cumulative.getLastD 0
  { total_return := total
    annualized_return := (1 + total) ^ ((252 : ℝ) / returns.length) - 1
    sharpe := calculateSharpe returns
    max_drawdown := calculateMaxDrawdown cumulative
    win_rate := winRate returns
    num_trades := (tradeReturns returns).length }

open Classical in
/-- Specification-side trade segmentation: the maximal contiguous runs of
nonzero daily returns, in order. -/
def specRuns : List ℝ → List (List ℝ)
  | [] => []
  | x :: t =>
    if x = 0 then specRuns t
    else (x :: t.takeWhile fun z => decide (z ≠ 0)) ::
      specRuns (t.dropWhile fun z => decide (z ≠ 0))
termination_by l => l.length
decreasing_by
  · simp
  · simp only [List.length_cons, Nat.lt_succ_iff]
    exact ((List.dropWhile_suffix _).sublist).length_le

/-- Specification-side trade count: the number of maximal nonzero runs. -/
def specNumTrades (l : List ℝ) : ℕ := (specRuns l).length

open Classical in
/-- Specification-side win rate: the fraction of maximal nonzero runs whose
compounded return is strictly positive (zero if there are no runs). -/
def specWinRate (l : List ℝ) : ℝ :=
  if specRuns l = [] then 0
  else (((specRuns l).map fun run =>
    if 0 < (run.map fun r => 1 + r).prod - 1 then (1 : ℝ) else 0).sum) /
    (specRuns l).length

/-- The price column of an instrument in the panel. -/
def panelCol (panel : Panel) (s : String) : List ℝ :=
  ((panel.lookup s).getD [])

/-- The row count of the panel (`len(price_data.index)`). -/
def panelLen (panel : Panel) : ℕ :=
  match panel with
  | [] => 0
  | c :: _ => c.2.length

/-- `PortfolioStrategy.backtest`: truncates the pair list to `max_pairs`,
runs signal generation and return calculation per pair (hedge ratio looked
up with default 1.0), accumulates `capital_per_pair`-scaled daily returns
into the portfolio series, and scores it. -/
def backtestPortfolio (cfg : StrategyConfig) (max_pairs : ℕ)
    (capital_per_pair : ℝ) (panel : Panel) (pairs : List (String × String))
    (hr : List (String × ℝ)) : List ℝ × PerformanceMetrics :=
  let traded := pairs.take max_pairs
  let port := traded.foldl (fun acc pr =>
    let price1 := panelCol panel pr.1
    let price2 := panelCol panel pr.2
    let hedge := backtestHedge hr pr.1 pr.2
    let sig := generateSignals cfg price1 price2 hedge
    let rets := calculateReturns price1 price2 sig.2.2.1 sig.2.2.2
    addL acc (rets.1.map fun r => capital_per_pair * r))
    (List.replicate (panelLen panel) (0 : ℝ))
  (port, calculatePerformanceMetrics port)

open Classical in
/-- `StatArbBacktester.run_backtest`: screens the training panel, raises
`ValueError` when no pair survives, otherwise collects the hedge ratios
from `pair_stats` and backtests the portfolio on the test panel. -/
def runBacktest (cointP : List ℝ → List ℝ → ℝ) (sel : PairSelector)
    (cfg : StrategyConfig) (max_pairs : ℕ) (capital_per_pair : ℝ)
    (train test : Panel) : Except String (List ℝ × PerformanceMetrics) :=
  let pairs := selectedPairs cointP sel train
  if pairs = [] then
    Except.error "No cointegrated pairs found in the training data"
  else
    let hr := (findCointegratedPairs cointP sel train).map fun e =>
      (e.1.1 ++ "_" ++ e.1.2, e.2.hedge)
    Except.ok (backtestPortfolio cfg max_pairs capital_per_pair test pairs hr)

/-- Concrete oracle assigning p-value 0 to every candidate pair. -/
def cointP0 : List ℝ → List ℝ → ℝ := fun _ _ => 0

/-- Concrete selector configuration accepting non-positive half-lives. -/
def sel5 : PairSelector := ⟨1, -1, 100⟩

/-- Selector configuration with the repository defaults. -/
def selD : PairSelector := ⟨0.05, 5, 100⟩

/-- Strategy configuration with the repository defaults. -/
def cfgD : StrategyConfig := ⟨2, 0.5, 4, 20, 20⟩

/-- A two-column panel whose single candidate pair `sel5` accepts: the
spread is `[1, 0, 0, 0]`, the fitted AR(1) coefficient is `-1`, and the
computed half-life is `log 2 / log 0 = -0.0`. -/
def panelW : Panel := [("A", [2, 1, 2, 3]), ("B", [3, 1, 2, 3])]

/-- The statistics recorded for the single pair of `panelW` under `sel5`. -/
def statsW : PairStats := ⟨0, 1, some 0⟩

/-- Strategy configuration with `entry_threshold = -1` (so any negative
z-score triggers entry) and a two-step lookback. -/
def cfgW : StrategyConfig := ⟨-1, 0, 4, 2, 20⟩

/-- `cfgW` with `max_position_days = 0`. -/
def cfg9 : StrategyConfig := ⟨-1, 0, 4, 2, 0⟩

/-- Concrete pair-stats map holding one pair under the key `"A_B"`. -/
def demoStats : List (String × PairStats) := [("A_B", ⟨1 / 100, 2, some 3⟩)]

end

/-! ### Generic list access lemmas -/

theorem getD_map {α β : Type} (f : α → β) (l : List α) (i : ℕ)
    (hi : i < l.length) (d : β) (e : α) :
    (l.map f).getD i d = f (l.getD i e) := by
  rw [List.getD_eq_getElem _ _ (by simpa using hi), List.getD_eq_getElem _ _ hi,
    List.getElem_map]

theorem getD_range_map {β : Type} (f : ℕ → β) (n i : ℕ) (hi : i < n) (d : β) :
    ((List.range n).map f).getD i d = f i := by
  rw [getD_map f _ i (by simpa using hi) d 0, List.getD_eq_getElem _ _ (by simpa using hi),
    List.getElem_range]

theorem getD_zip_map {α β γ : Type} (f : α → β → γ) (a : List α) (b : List β)
    (i : ℕ) (ha : i < a.length) (hb : i < b.length) (d : γ) (da : α) (db : β) :
    ((a.zip b).map fun q => f q.1 q.2).getD i d = f (a.getD i da) (b.getD i db) := by
  have hz : i < (a.zip b).length := by simp [List.length_zip]; omega
  rw [List.getD_eq_getElem _ _ (by simpa using hz), List.getElem_map,
    List.getElem_zip, List.getD_eq_getElem _ _ ha, List.getD_eq_getElem _ _ hb]

/-! ### C10: hedge-ratio lookup -/

/-- C10: `PairSelector.get_hedge_ratio` returns the stored ratio when the
`(stock1, stock2)` orientation is recorded, the reciprocal of the stored
ratio when only the reversed orientation is recorded, and fails with an
error (no default substituted) when neither orientation is present; the
`1.0` fallback for a missing ratio exists only in
`PortfolioStrategy.backtest`'s lookup. -/
theorem C10_hedge_lookup (stats : List (String × PairStats)) (s1 s2 : String) :
    (∀ st, stats.lookup (s1 ++ "_" ++ s2) = some st →
      getHedge stats s1 s2 = Except.ok st.hedge) ∧
    (stats.lookup (s1 ++ "_" ++ s2) = none → ∀ st,
      stats.lookup (s2 ++ "_" ++ s1) = some st →
      getHedge stats s1 s2 = Except.ok (1 / st.hedge)) ∧
    (stats.lookup (s1 ++ "_" ++ s2) = none →
      stats.lookup (s2 ++ "_" ++ s1) = none →
      getHedge stats s1 s2 = Except.error
        ("Pair " ++ s1 ++ "_" ++ s2 ++ " not found in pair statistics")) ∧
    (∀ hr : List (String × ℝ), hr.lookup (s1 ++ "_" ++ s2) = none →
      backtestHedge hr s1 s2 = 1) := by
  refine ⟨?_, ?_, ?_, ?_⟩
  · intro st h
    unfold getHedge
    rw [h]
  · intro h1 st h2
    unfold getHedge
    rw [h1, h2]
  · intro h1 h2
    unfold getHedge
    rw [h1, h2]
  · intro hr h
    unfold backtestHedge
    rw [h]
    rfl

/-- Witness for C10 on the concrete map `demoStats`. -/
theorem C10_hedge_lookup_witness :
    getHedge demoStats "A" "B" = Except.ok (2 : ℝ) ∧
    getHedge demoStats "B" "A" = Except.ok (1 / 2 : ℝ) ∧
    getHedge demoStats "A" "C" =
      Except.error "Pair A_C not found in pair statistics" ∧
    backtestHedge [("A_B", (2 : ℝ))] "A" "C" = 1 := by
  refine ⟨(C10_hedge_lookup demoStats "A" "B").1 ⟨1 / 100, 2, some 3⟩ rfl, ?_, ?_, ?_⟩
  · exact (C10_hedge_lookup demoStats "B" "A").2.1 rfl ⟨1 / 100, 2, some 3⟩ rfl
  · exact (C10_hedge_lookup demoStats "A" "C").2.2.1 rfl rfl
  · exact (C10_hedge_lookup demoStats "A" "C").2.2.2 [("A_B", (2 : ℝ))] rfl

/-! ### C2: the half-life computation -/

theorem roll1_tail (l : List ℝ) : (roll1 l).tail = l.dropLast := by
  unfold roll1
  cases h : l.getLast? with
  | none =>
    rw [List.getLast?_eq_none_iff] at h
    subst h
    rfl
  | some x => rfl

theorem sum_zip_sub_mul (a b : ℝ) :
    ∀ (x y : List ℝ), x.length = y.length →
      ((x.zip y).map fun q => (q.1 - a) * (q.2 - b)).sum =
        dotL x y - b * x.sum - a * y.sum + x.length * (a * b) := by
  intro x
  induction x with
  | nil =>
    intro y hy
    rw [List.length_nil, eq_comm, List.length_eq_zero] at hy
    subst hy
    simp [dotL]
  | cons c t ih =>
    intro y hy
    cases y with
    | nil => simp at hy
    | cons d u =>
      have hl : t.length = u.length := by
        simpa using hy
      simp only [List.zip_cons_cons, List.map_cons, List.sum_cons, dotL,
        List.length_cons] at *
      rw [ih u hl]
      push_cast
      ring

theorem sum_map_sub_sq (a : ℝ) (x : List ℝ) :
    (x.map fun c => (c - a) * (c - a)).sum =
      dotL x x - 2 * a * x.sum + x.length * (a * a) := by
  induction x with
  | nil => simp [dotL]
  | cons c t ih =>
    simp only [List.map_cons, List.sum_cons, dotL, List.zip_cons_cons,
      List.length_cons] at *
    rw [ih]
    push_cast
    ring

theorem polyfitSlope_eq_lsqSlope (x y : List ℝ) (h : x.length = y.length) :
    polyfitSlope x y = lsqSlope x y := by
  cases x with
  | nil =>
    rw [List.length_nil, eq_comm, List.length_eq_zero] at h
    subst h
    simp [polyfitSlope, lsqSlope, dotL]
  | cons c t =>
    have hn : ((c :: t).length : ℝ) ≠ 0 := by
      simp
      positivity
    unfold polyfitSlope lsqSlope
    dsimp only
    rw [← h, sum_zip_sub_mul _ _ _ _ h, sum_map_sub_sq]
    set n : ℝ := ((c :: t).length : ℝ) with hnd
    set sx : ℝ := (c :: t).sum
    set sy : ℝ := y.sum
    set sxy : ℝ := dotL (c :: t) y
    set sxx : ℝ := dotL (c :: t) (c :: t)
    have hnum : sxy - sy / n * sx - sx / n * sy + n * (sx / n * (sy / n)) =
        (n * sxy - sx * sy) / n := by
      field_simp
      ring
    have hden : sxx - 2 * (sx / n) * sx + n * (sx / n * (sx / n)) =
        (n * sxx - sx * sx) / n := by
      field_simp
      ring
    rw [hnum, hden]
    rcases eq_or_ne (n * sxx - sx * sx) 0 with hz | hz
    · rw [hz]
      simp
    · rw [div_div_div_cancel_right₀]
      exact hn

/-- C2: the half-life estimate is obtained by least-squares fitting the
one-step spread change against the lagged spread level to get `γ`, and
equals `ln 2 / ln (1 + γ)` when `γ < 0` and `+∞` when `γ ≥ 0` (with the
float reading of `ln` at non-positive arguments shared by code and
formula). -/
theorem C2_half_life_formula (spread : List ℝ) :
    calculateHalfLife spread = specHalfLife spread := by
  unfold calculateHalfLife specHalfLife specGamma
  dsimp only
  rw [roll1_tail]
  congr 1
  apply polyfitSlope_eq_lsqSlope
  simp only [List.length_map, List.length_zip, List.length_tail,
    List.length_dropLast]
  omega

/-! ### C1: the screener never accepts with a positive half-life window -/

theorem halfLifeAccept_of_pos_min (sel : PairSelector)
    (hmin : 0 < sel.min_half_life) (gamma : ℝ) :
    ¬ halfLifeAccept sel (halfLifeOfGamma gamma) := by
  unfold halfLifeOfGamma
  by_cases hg : gamma < 0
  · rw [if_pos hg]
    by_cases h1 : 0 < 1 + gamma
    · rw [if_pos h1]
      have hlogpos : 0 < Real.log 2 := Real.log_pos (by norm_num)
      have hlogneg : Real.log (1 + gamma) < 0 :=
        Real.log_neg h1 (by linarith)
      have hv : Real.log 2 / Real.log (1 + gamma) < 0 :=
        div_neg_of_pos_of_neg hlogpos hlogneg
      intro hacc
      rcases hacc with ⟨hlo, _⟩
      rw [EReal.coe_le_coe_iff] at hlo
      linarith
    · rw [if_neg h1]
      by_cases h2 : 1 + gamma = 0
      · rw [if_pos h2]
        intro hacc
        rcases hacc with ⟨hlo, _⟩
        have : (sel.min_half_life : EReal) ≤ ((0 : ℝ) : EReal) := by
          simpa using hlo
        rw [EReal.coe_le_coe_iff] at this
        linarith
      · rw [if_neg h2]
        intro hacc
        exact hacc
  · rw [if_neg hg]
    intro hacc
    rcases hacc with ⟨_, hhi⟩
    rw [top_le_iff] at hhi
    exact (EReal.coe_ne_top sel.max_half_life) hhi

theorem screenPair_none_of_pos_min (cointP : List ℝ → List ℝ → ℝ)
    (sel : PairSelector) (hmin : 0 < sel.min_half_life)
    (c : (String × List ℝ) × (String × List ℝ)) :
    screenPair cointP sel c = none := by
  unfold screenPair
  dsimp only
  split
  · rw [if_neg]
    exact halfLifeAccept_of_pos_min sel hmin _
  · rfl

/-- C1: for every panel and every configuration with `min_half_life > 0`
(and the necessarily finite `max_half_life`), `find_cointegrated_pairs`
returns the empty pair list and leaves `pair_stats` empty — the computed
half-life is never a positive finite float — and consequently
`StatArbBacktester.run_backtest` raises its no-pairs `ValueError`. -/
theorem C1_screener_empty (cointP : List ℝ → List ℝ → ℝ) (sel : PairSelector)
    (cfg : StrategyConfig) (max_pairs : ℕ) (capital_per_pair : ℝ)
    (train test : Panel) (hmin : 0 < sel.min_half_life) :
    findCointegratedPairs cointP sel train = [] ∧
    selectedPairs cointP sel train = [] ∧
    pairStatsMap cointP sel train = [] ∧
    runBacktest cointP sel cfg max_pairs capital_per_pair train test =
      Except.error "No cointegrated pairs found in the training data" := by
  have hf : findCointegratedPairs cointP sel train = [] := by
    unfold findCointegratedPairs
    rw [List.filterMap_eq_nil_iff]
    intro c _
    exact screenPair_none_of_pos_min cointP sel hmin c
  have hs : selectedPairs cointP sel train = [] := by
    unfold selectedPairs
    rw [hf]
    rfl
  refine ⟨hf, hs, ?_, ?_⟩
  · unfold pairStatsMap
    rw [hf]
    rfl
  · unfold runBacktest
    rw [hs]
    rfl

/-- Witness for C1 at the default configuration on a concrete panel. -/
theorem C1_screener_empty_witness :
    0 < selD.min_half_life ∧
    (findCointegratedPairs cointP0 selD panelW = [] ∧
      selectedPairs cointP0 selD panelW = [] ∧
      pairStatsMap cointP0 selD panelW = [] ∧
      runBacktest cointP0 selD cfgD 5 0.2 panelW panelW =
        Except.error "No cointegrated pairs found in the training data") := by
  have h : (0 : ℝ) < 5 := by norm_num
  exact ⟨h, C1_screener_empty cointP0 selD cfgD 5 0.2 panelW panelW h⟩

/-! ### C5: invariants of accepted pairs -/

/-- C5: every pair accepted by `find_cointegrated_pairs` has recorded
p-value below the significance level and a half-life within
`[min_half_life, max_half_life]`; a pair with infinite half-life is never
accepted. -/
theorem C5_accepted_invariant (cointP : List ℝ → List ℝ → ℝ)
    (sel : PairSelector) (panel : Panel) (pr : String × String)
    (st : PairStats)
    (hmem : (pr, st) ∈ findCointegratedPairs cointP sel panel) :
    st.p_value < sel.significance_level ∧
    ∃ h : EReal, st.half_life = some h ∧
      (sel.min_half_life : EReal) ≤ h ∧ h ≤ (sel.max_half_life : EReal) ∧
      h ≠ ⊤ := by
  unfold findCointegratedPairs at hmem
  rw [List.mem_filterMap] at hmem
  obtain ⟨c, _, hc⟩ := hmem
  unfold screenPair at hc
  dsimp only at hc
  by_cases hp : (testCointegration cointP c.1.2 c.2.2 sel.significance_level).1
  · rw [if_pos hp] at hc
    by_cases hacc : halfLifeAccept sel (calculateHalfLife
        ((c.2.2.zip c.1.2).map fun q => q.1 - polyfitSlope c.1.2 c.2.2 * q.2))
    · rw [if_pos hacc] at hc
      injection hc with hc2
      have hst : st = ⟨(testCointegration cointP c.1.2 c.2.2 sel.significance_level).2,
          polyfitSlope c.1.2 c.2.2,
          calculateHalfLife ((c.2.2.zip c.1.2).map fun q =>
            q.1 - polyfitSlope c.1.2 c.2.2 * q.2)⟩ :=
        (Prod.ext_iff.mp hc2).2.symm
      subst hst
      refine ⟨hp, ?_⟩
      cases hhl : calculateHalfLife ((c.2.2.zip c.1.2).map fun q =>
          q.1 - polyfitSlope c.1.2 c.2.2 * q.2) with
      | none =>
        rw [hhl] at hacc
        exact absurd hacc (by simp [halfLifeAccept])
      | some h =>
        rw [hhl] at hacc
        have hacc2 : (sel.min_half_life : EReal) ≤ h ∧
            h ≤ (sel.max_half_life : EReal) := hacc
        exact ⟨h, by simp [hhl], hacc2.1, hacc2.2,
          (lt_of_le_of_lt hacc2.2 (EReal.coe_lt_top _)).ne⟩
    · rw [if_neg hacc] at hc
      exact absurd hc (by simp)
  · rw [if_neg hp] at hc
    exact absurd hc (by simp)

theorem hedgeW : polyfitSlope [(2 : ℝ), 1, 2, 3] [(3 : ℝ), 1, 2, 3] = 1 := by
  norm_num [polyfitSlope, dotL]

theorem halfLifeW : calculateHalfLife [(1 : ℝ), 0, 0, 0] = some 0 := by
  have hg : polyfitSlope [(1 : ℝ), 0, 0] [0 - 1, 0 - 0, 0 - 0] = -1 := by
    norm_num [polyfitSlope, dotL]
  show halfLifeOfGamma (polyfitSlope ((roll1 [1, 0, 0, 0]).tail)
    ((([(1 : ℝ), 0, 0, 0]).tail.zip ((roll1 [1, 0, 0, 0]).tail)).map fun q => q.1 - q.2))
    = some 0
  have hargs : ((roll1 [(1 : ℝ), 0, 0, 0]).tail) = [(1 : ℝ), 0, 0] := rfl
  rw [hargs]
  have hd : ((([(1 : ℝ), 0, 0, 0]).tail.zip [(1 : ℝ), 0, 0]).map fun q => q.1 - q.2) =
      [0 - 1, 0 - 0, 0 - 0] := rfl
  rw [hd, hg]
  unfold halfLifeOfGamma
  norm_num

theorem acceptW : halfLifeAccept sel5 (some 0) := by
  constructor
  · rw [show ((0 : EReal)) = (((0 : ℝ)) : EReal) by simp]
    rw [EReal.coe_le_coe_iff]
    norm_num [sel5]
  · rw [show ((0 : EReal)) = (((0 : ℝ)) : EReal) by simp]
    rw [EReal.coe_le_coe_iff]
    norm_num [sel5]

theorem screenPairW :
    screenPair cointP0 sel5 (("A", [2, 1, 2, 3]), ("B", [3, 1, 2, 3])) =
      some (("A", "B"), statsW) := by
  have hp : (testCointegration cointP0 [(2 : ℝ), 1, 2, 3] [(3 : ℝ), 1, 2, 3]
      sel5.significance_level).1 := by
    show cointP0 [(2 : ℝ), 1, 2, 3] [(3 : ℝ), 1, 2, 3] < sel5.significance_level
    norm_num [cointP0, sel5]
  unfold screenPair
  dsimp only
  rw [if_pos hp, hedgeW]
  have hspread : ((([(3 : ℝ), 1, 2, 3]).zip [(2 : ℝ), 1, 2, 3]).map fun q =>
      q.1 - 1 * q.2) = [(1 : ℝ), 0, 0, 0] := by
    norm_num
  rw [hspread, halfLifeW, if_pos acceptW]
  rfl

theorem memW : (("A", "B"), statsW) ∈ findCointegratedPairs cointP0 sel5 panelW := by
  have hc : combinations2 [("A", ([2, 1, 2, 3] : List ℝ)), ("B", [3, 1, 2, 3])] =
      [(("A", [2, 1, 2, 3]), ("B", [3, 1, 2, 3]))] := rfl
  unfold findCointegratedPairs panelW
  rw [hc, List.filterMap_cons, screenPairW]
  simp

/-- Witness for C5: a concrete accepted pair satisfying the invariant. -/
theorem C5_accepted_invariant_witness :
    ((("A", "B"), statsW) ∈ findCointegratedPairs cointP0 sel5 panelW) ∧
    (statsW.p_value < sel5.significance_level ∧
      ∃ h : EReal, statsW.half_life = some h ∧
        (sel5.min_half_life : EReal) ≤ h ∧ h ≤ (sel5.max_half_life : EReal) ∧
        h ≠ ⊤) :=
  ⟨memW, C5_accepted_invariant cointP0 sel5 panelW _ _ memW⟩

/-! ### C4: metrics on an all-zero return series -/

theorem scanl_mul_ones (n : ℕ) :
    ((List.replicate n (1 : ℝ)).scanl (fun a b => a * b) 1) =
      List.replicate (n + 1) 1 := by
  induction n with
  | zero => rfl
  | succ m ih =>
    rw [List.replicate_succ, List.scanl_cons, mul_one, ih]
    simp [List.replicate_succ]

theorem cumReturns_zeros (n : ℕ) :
    cumReturns (List.replicate n 0) = List.replicate n 0 := by
  unfold cumReturns
  rw [List.map_replicate, add_zero, scanl_mul_ones, List.replicate_succ]
  rw [List.tail_cons, List.map_replicate, sub_self]

theorem minF_none_left (b : Option EReal) : minF none b = none := by
  cases b <;> rfl

theorem drawdownEntry_zero : drawdownEntry 0 0 = none := by
  unfold drawdownEntry
  rw [if_pos rfl, if_pos (by norm_num)]

theorem foldl_minF_none (n : ℕ) :
    (List.replicate n (none : Option EReal)).foldl minF none = none := by
  induction n with
  | zero => rfl
  | succ m ih => rw [List.replicate_succ, List.foldl_cons, minF_none_left, ih]

theorem scanl_max_zeros (n : ℕ) :
    ((List.replicate n (0 : ℝ)).scanl max 0) = List.replicate (n + 1) 0 := by
  induction n with
  | zero => rfl
  | succ m ih =>
    rw [List.replicate_succ, List.scanl_cons, max_self, ih]
    simp [List.replicate_succ]

theorem zip_replicate_zeros (n : ℕ) :
    (List.replicate n (0 : ℝ)).zip (List.replicate n (0 : ℝ)) =
      List.replicate n ((0 : ℝ), (0 : ℝ)) := by
  induction n with
  | zero => rfl
  | succ m ih =>
    rw [List.replicate_succ, List.replicate_succ, List.zip_cons_cons, ih]

theorem zip_replicate_zeros_int (n : ℕ) :
    (List.replicate n (0 : ℤ)).zip (List.replicate n (0 : ℤ)) =
      List.replicate n ((0 : ℤ), (0 : ℤ)) := by
  induction n with
  | zero => rfl
  | succ m ih =>
    rw [List.replicate_succ, List.replicate_succ, List.zip_cons_cons, ih]

theorem maxDrawdown_zeros_nan (m : ℕ) :
    calculateMaxDrawdown (List.replicate (m + 1) 0) = none := by
  unfold calculateMaxDrawdown
  rw [if_neg (by simp)]
  have hrm : runningMax (List.replicate (m + 1) 0) = List.replicate (m + 1) 0 := by
    rw [List.replicate_succ]
    show (List.replicate m (0 : ℝ)).scanl max 0 = _
    rw [scanl_max_zeros, List.replicate_succ]
  dsimp only
  rw [hrm, zip_replicate_zeros, List.map_replicate,
    show drawdownEntry (((0 : ℝ), (0 : ℝ)) : ℝ × ℝ).1 ((0 : ℝ), (0 : ℝ)).2 = none from
      drawdownEntry_zero]
  rw [List.replicate_succ]
  show (listMinF ((none : Option EReal) :: List.replicate m none)).map _ = none
  have h1 : listMinF ((none : Option EReal) :: List.replicate m none) = none := by
    show (List.replicate m (none : Option EReal)).foldl minF none = none
    exact foldl_minF_none m
  rw [h1]
  rfl

theorem stdPop_zeros (n : ℕ) : stdPop (List.replicate n 0) = 0 := by
  unfold stdPop meanL
  rw [List.sum_replicate, smul_zero, zero_div, List.map_replicate, sub_zero,
    mul_zero, List.sum_replicate, smul_zero, zero_div, Real.sqrt_zero]

theorem sharpe_zeros (n : ℕ) : calculateSharpe (List.replicate n 0) = 0 := by
  unfold calculateSharpe
  rw [if_pos (Or.inr (stdPop_zeros n))]

theorem getD_replicate_zero (m i : ℕ) :
    (List.replicate m (0 : ℤ)).getD i 0 = 0 := by
  induction m generalizing i with
  | zero => cases i <;> rfl
  | succ k ih =>
    cases i with
    | zero => rfl
    | succ j => rw [List.replicate_succ, List.getD_cons_succ, ih]

theorem whereIdx_replicate_zero (m : ℕ) (v : ℤ) (hv : v ≠ 0) :
    whereIdx (List.replicate m 0) v = [] := by
  unfold whereIdx
  rw [List.filter_eq_nil_iff]
  intro i _
  rw [getD_replicate_zero]
  simpa using fun h => hv h.symm

theorem dropLast_replicate_zero (n : ℕ) :
    (List.replicate n (0 : ℤ)).dropLast = List.replicate (n - 1) 0 := by
  cases n with
  | zero => rfl
  | succ m =>
    rw [List.replicate_succ', List.dropLast_concat]
    rfl

theorem tradeReturns_zeros (n : ℕ) :
    tradeReturns (List.replicate n 0) = [] := by
  have hind : nonzeroIndicator (List.replicate n 0) = List.replicate n 0 := by
    unfold nonzeroIndicator
    rw [List.map_replicate]
    norm_num
  have hdiff : diffL (List.replicate n (0 : ℤ)) = List.replicate (n - 1) 0 := by
    unfold diffL
    cases n with
    | zero => rfl
    | succ m =>
      rw [List.replicate_succ, List.tail_cons, ← List.replicate_succ,
        dropLast_replicate_zero]
      have : (m + 1) - 1 = m := rfl
      rw [this, zip_replicate_zeros_int m, List.map_replicate, sub_self]
  have hstarts : tradeStarts (List.replicate n 0) = [] := by
    unfold tradeStarts
    rw [hind, hdiff, whereIdx_replicate_zero _ _ (by norm_num)]
    rfl
  have hends : tradeEnds0 (List.replicate n 0) = [] := by
    unfold tradeEnds0
    rw [hind, hdiff, whereIdx_replicate_zero _ _ (by norm_num)]
    rfl
  unfold tradeReturns
  rw [hstarts]
  rfl

/-- C4 (code bug): `_calculate_performance_metrics` on a nonempty all-zero
return series yields Sharpe 0.0, win rate 0 and zero trades as claimed, but
the max drawdown is NaN, not 0.0: the all-zero cumulative curve makes every
drawdown entry `0.0 / 0.0` and `abs(np.min(...))` keeps the NaN. Only
`calculate_max_drawdown` of an empty input is 0.0. -/
theorem C4_zero_returns (r : List ℝ) (hne : r ≠ []) (hz : ∀ x ∈ r, x = 0) :
    (calculatePerformanceMetrics r).sharpe = 0 ∧
    (calculatePerformanceMetrics r).max_drawdown = none ∧
    (calculatePerformanceMetrics r).win_rate = 0 ∧
    (calculatePerformanceMetrics r).num_trades = 0 ∧
    calculateMaxDrawdown [] = some 0 := by
  obtain ⟨n, rfl⟩ : ∃ n, r = List.replicate n 0 := by
    refine ⟨r.length, ?_⟩
    rw [List.eq_replicate_iff]
    exact ⟨rfl, hz⟩
  obtain ⟨m, rfl⟩ : ∃ m, n = m + 1 := by
    cases n with
    | zero => exact absurd rfl hne
    | succ k => exact ⟨k, rfl⟩
  unfold calculatePerformanceMetrics
  dsimp only
  rw [cumReturns_zeros, sharpe_zeros, maxDrawdown_zeros_nan, tradeReturns_zeros]
  refine ⟨rfl, rfl, ?_, rfl, rfl⟩
  unfold winRate
  rw [tradeReturns_zeros]
  rfl

/-- Witness for C4 on the concrete series `[0, 0, 0]`. -/
theorem C4_zero_returns_witness :
    (([(0 : ℝ), 0, 0] : List ℝ) ≠ [] ∧ ∀ x ∈ ([(0 : ℝ), 0, 0] : List ℝ), x = 0) ∧
    ((calculatePerformanceMetrics [(0 : ℝ), 0, 0]).sharpe = 0 ∧
      (calculatePerformanceMetrics [(0 : ℝ), 0, 0]).max_drawdown = none ∧
      (calculatePerformanceMetrics [(0 : ℝ), 0, 0]).win_rate = 0 ∧
      (calculatePerformanceMetrics [(0 : ℝ), 0, 0]).num_trades = 0 ∧
      calculateMaxDrawdown [] = some 0) := by
  have h1 : ([(0 : ℝ), 0, 0] : List ℝ) ≠ [] := by simp
  have h2 : ∀ x ∈ ([(0 : ℝ), 0, 0] : List ℝ), x = 0 := by
    intro x hx
    simp only [List.mem_cons, List.not_mem_nil, or_false] at hx
    rcases hx with h | h | h <;> exact h
  exact ⟨⟨h1, h2⟩, C4_zero_returns [(0 : ℝ), 0, 0] h1 h2⟩

/-! ### C3: z-score warm-up indexing -/

theorem calculateZscore_getD (spread : List ℝ) (window i : ℕ)
    (hi : i < spread.length) :
    (calculateZscore spread window).getD i 0 =
      if i < window then 0
      else (spread.getD i 0 - (((rollingMean spread window).getD i none).getD 0)) /
        (((rollingStd spread window).getD i none).getD 0) := by
  unfold calculateZscore
  rw [getD_range_map _ _ _ hi]

theorem rollingMean_getD (s : List ℝ) (w i : ℕ) (hi : i < s.length)
    (hw : w ≤ i + 1) :
    (rollingMean s w).getD i none = some (windowMean s w i) := by
  unfold rollingMean
  rw [getD_range_map _ _ _ hi, if_pos hw]

theorem rollingStd_getD (s : List ℝ) (w i : ℕ) (hi : i < s.length)
    (hw : w ≤ i + 1) :
    (rollingStd s w).getD i none = some (windowStd s w i) := by
  unfold rollingStd
  rw [getD_range_map _ _ _ hi, if_pos hw]

/-- C3 (amended): z-score entries below `lookback_period` are exactly 0 —
including index `lookback_period - 1`, whose trailing window is already
complete — and the rolling formula `(spread − rolling_mean) / rolling_std`
applies exactly from index `lookback_period` onwards (the second complete
window). -/
theorem C3_zscore_indexing (spread : List ℝ) (window : ℕ) (_hw : 1 ≤ window)
    (i : ℕ) (hi : i < spread.length) :
    (i < window → (calculateZscore spread window).getD i 0 = 0) ∧
    (window ≤ i →
      (calculateZscore spread window).getD i 0 = specZscoreAt spread window i) := by
  constructor
  · intro hlt
    rw [calculateZscore_getD spread window i hi, if_pos hlt]
  · intro hge
    rw [calculateZscore_getD spread window i hi, if_neg (by omega),
      rollingMean_getD spread window i hi (by omega),
      rollingStd_getD spread window i hi (by omega)]
    rfl

/-- Witness for the amended C3 on a concrete spread. -/
theorem C3_zscore_indexing_witness :
    (1 ≤ 2 ∧ (1 : ℕ) < 3) ∧
    ((1 < 2 → (calculateZscore [0, 1, 4] 2).getD 1 0 = 0) ∧
      (2 ≤ 1 →
        (calculateZscore [0, 1, 4] 2).getD 1 0 = specZscoreAt [0, 1, 4] 2 1)) :=
  ⟨⟨by norm_num, by norm_num⟩,
    C3_zscore_indexing [0, 1, 4] 2 (by norm_num) 1 (by norm_num)⟩

/-- C3 counterexample: on the spread `[0, 1]` with `lookback_period = 2`,
index 1 is the first index with a complete trailing window, yet the code
leaves its z-score at 0 while the rolling formula value there is nonzero —
refuting "the formula (not 0) applies at the first index with a complete
window". -/
theorem C3_zscore_counterexample :
    (calculateZscore [0, 1] 2).getD 1 0 = 0 ∧ specZscoreAt [0, 1] 2 1 ≠ 0 := by
  constructor
  · rw [calculateZscore_getD [0, 1] 2 1 (by norm_num), if_pos (by norm_num)]
  · have hm : windowMean [0, 1] 2 1 = 1 / 2 := by
      unfold windowMean windowSlice
      norm_num
    have hstd : 0 < windowStd [0, 1] 2 1 := by
      unfold windowStd windowSlice
      rw [hm]
      apply Real.sqrt_pos.mpr
      norm_num
    have hnum : (0 : ℝ) < ([(0 : ℝ), 1].getD 1 0) - windowMean [0, 1] 2 1 := by
      rw [hm]
      norm_num
    unfold specZscoreAt
    exact ne_of_gt (div_pos hnum hstd)

/-! ### C7: return calculation -/

theorem getD_tail {α : Type} (l : List α) (i : ℕ) (d : α) :
    l.tail.getD i d = l.getD (i + 1) d := by
  cases l with
  | nil => rfl
  | cons a t => rfl

theorem getD_dropLast {α : Type} (l : List α) (i : ℕ) (h : i + 1 < l.length)
    (d : α) : l.dropLast.getD i d = l.getD i d := by
  rw [List.getD_eq_getElem _ _ (by simp; omega),
    List.getD_eq_getElem _ _ (by omega), List.getElem_dropLast]

theorem priceChanges_length (p : List ℝ) :
    (priceChanges p).length = p.length := by
  cases p with
  | nil => rfl
  | cons a t =>
    simp [priceChanges, List.length_zip]

theorem priceChanges_getD_zero (p : List ℝ) (h : p ≠ []) :
    (priceChanges p).getD 0 0 = 0 := by
  cases p with
  | nil => exact absurd rfl h
  | cons a t => rfl

theorem priceChanges_getD (p : List ℝ) (t : ℕ) (h1 : 1 ≤ t)
    (h2 : t < p.length) :
    (priceChanges p).getD t 0 =
      (p.getD t 0 - p.getD (t - 1) 0) / p.getD (t - 1) 0 := by
  cases p with
  | nil => simp at h2
  | cons a l =>
    obtain ⟨s, rfl⟩ : ∃ s, t = s + 1 := ⟨t - 1, by omega⟩
    have hrepr : priceChanges (a :: l) =
        0 :: (((a :: l).tail.zip (a :: l).dropLast).map fun q =>
          (q.1 - q.2) / q.2) := rfl
    have hs : s < l.length := by
      simp only [List.length_cons] at h2
      omega
    rw [hrepr, List.getD_cons_succ,
      getD_zip_map (fun u v => (u - v) / v) _ _ s
        (by simp only [List.tail_cons]; exact hs)
        (by simp only [List.length_dropLast, List.length_cons]; omega) 0 0 0]
    rw [getD_tail, getD_dropLast _ _ (by omega)]
    simp

theorem mulL_length (x y : List ℝ) : (mulL x y).length = min x.length y.length := by
  simp [mulL]

theorem addL_length (x y : List ℝ) : (addL x y).length = min x.length y.length := by
  simp [addL]

theorem scanl_mul_getD (f : ℝ → ℝ) :
    ∀ (l : List ℝ) (a : ℝ) (i : ℕ), i < l.length →
      ((l.map f).scanl (fun p q => p * q) a).getD (i + 1) 0 =
        a * ((l.take (i + 1)).map f).prod := by
  intro l
  induction l with
  | nil =>
    intro a i h
    simp at h
  | cons y ys ih =>
    intro a i hi
    rw [List.map_cons, List.scanl_cons, List.singleton_append]
    cases i with
    | zero =>
      rw [List.getD_cons_succ]
      have hhead : ∀ (m : List ℝ) (b : ℝ),
          (m.scanl (fun p q => p * q) b).getD 0 0 = b := by
        intro m b
        cases m <;> rfl
      rw [hhead]
      simp
    | succ j =>
      rw [List.getD_cons_succ, ih (a * f y) j (by simpa using hi)]
      rw [List.take_succ_cons, List.map_cons, List.prod_cons]
      ring

theorem cumReturns_length (l : List ℝ) : (cumReturns l).length = l.length := by
  unfold cumReturns
  simp [List.length_scanl]

theorem cumReturns_getD (l : List ℝ) (i : ℕ) (hi : i < l.length) :
    (cumReturns l).getD i 0 = ((l.take (i + 1)).map fun r => 1 + r).prod - 1 := by
  unfold cumReturns
  rw [getD_map _ _ i (by simp [List.length_scanl] ; omega) 0 0, getD_tail,
    scanl_mul_getD _ l 1 i hi, one_mul]

/-- C7 (amended): for every nonempty family of equal-length positive price
series and position series, `calculate_returns` yields daily returns with
`daily[0] = 0` and `daily[t] = position1[t-1]·ret1[t] + position2[t-1]·ret2[t]`
(simple returns of each leg), cumulative returns equal to the running
compounding product minus 1, and both outputs of the inputs' length. -/
theorem C7_returns (price1 price2 position1 position2 : List ℝ)
    (hlen2 : price2.length = price1.length)
    (hlen3 : position1.length = price1.length)
    (hlen4 : position2.length = price1.length)
    (_hpos1 : ∀ x ∈ price1, 0 < x) (_hpos2 : ∀ x ∈ price2, 0 < x)
    (hne : price1 ≠ []) :
    (calculateReturns price1 price2 position1 position2).1.length = price1.length ∧
    (calculateReturns price1 price2 position1 position2).2.length = price1.length ∧
    (calculateReturns price1 price2 position1 position2).1.getD 0 0 = 0 ∧
    (∀ t, 1 ≤ t → t < price1.length →
      (calculateReturns price1 price2 position1 position2).1.getD t 0 =
        position1.getD (t - 1) 0 *
          ((price1.getD t 0 - price1.getD (t - 1) 0) / price1.getD (t - 1) 0) +
        position2.getD (t - 1) 0 *
          ((price2.getD t 0 - price2.getD (t - 1) 0) / price2.getD (t - 1) 0)) ∧
    (∀ t, t < price1.length →
      (calculateReturns price1 price2 position1 position2).2.getD t 0 =
        (((calculateReturns price1 price2 position1 position2).1.take (t + 1)).map
          fun r => 1 + r).prod - 1) := by
  have hn : 1 ≤ price1.length := by
    cases price1
    · exact absurd rfl hne
    · simp
  have hdr : (calculateReturns price1 price2 position1 position2).1 =
      0 :: addL (mulL position1.dropLast (priceChanges price1).tail)
        (mulL position2.dropLast (priceChanges price2).tail) := rfl
  have hcr : (calculateReturns price1 price2 position1 position2).2 =
      cumReturns (calculateReturns price1 price2 position1 position2).1 := rfl
  have hlen : (calculateReturns price1 price2 position1 position2).1.length =
      price1.length := by
    rw [hdr]
    simp only [List.length_cons, addL_length, mulL_length, List.length_dropLast,
      List.length_tail, priceChanges_length, hlen2, hlen3, hlen4]
    omega
  refine ⟨hlen, ?_, ?_, ?_, ?_⟩
  · rw [hcr, cumReturns_length, hlen]
  · rw [hdr]
    rfl
  · intro t h1 h2
    obtain ⟨s, rfl⟩ : ∃ s, t = s + 1 := ⟨t - 1, by omega⟩
    rw [hdr, List.getD_cons_succ]
    simp only [addL, mulL]
    rw [getD_zip_map (fun u v => u + v) _ _ s ?hb1 ?hb2 0 0 0,
      getD_zip_map (fun u v => u * v) _ _ s ?hb3 ?hb4 0 0 0,
      getD_zip_map (fun u v => u * v) _ _ s ?hb5 ?hb6 0 0 0]
    case hb1 =>
      simp only [List.length_map, List.length_zip, List.length_dropLast,
        List.length_tail, priceChanges_length, hlen3]
      omega
    case hb2 =>
      simp only [List.length_map, List.length_zip, List.length_dropLast,
        List.length_tail, priceChanges_length, hlen2, hlen4]
      omega
    case hb3 =>
      simp only [List.length_dropLast, hlen3]
      omega
    case hb4 =>
      simp only [List.length_tail, priceChanges_length]
      omega
    case hb5 =>
      simp only [List.length_dropLast, hlen4]
      omega
    case hb6 =>
      simp only [List.length_tail, priceChanges_length, hlen2]
      omega
    rw [getD_tail, getD_tail, getD_dropLast _ _ (by omega),
      getD_dropLast _ _ (by omega),
      priceChanges_getD price1 (s + 1) (by omega) (by omega),
      priceChanges_getD price2 (s + 1) (by omega) (by omega)]
    simp
  · intro t ht
    rw [hcr, cumReturns_getD _ t (by rw [hlen]; exact ht)]

/-- Witness for the amended C7 on concrete two-step series. -/
theorem C7_returns_witness :
    (([(1 : ℝ), 2] : List ℝ).length = ([(1 : ℝ), 2] : List ℝ).length ∧
      (∀ x ∈ ([(1 : ℝ), 2] : List ℝ), 0 < x) ∧
      ([(1 : ℝ), 2] : List ℝ) ≠ []) ∧
    ((calculateReturns [1, 2] [1, 2] [1, 0] [0, 0]).1.length = 2 ∧
      (calculateReturns [1, 2] [1, 2] [1, 0] [0, 0]).1.getD 0 0 = 0) := by
  have hp : ∀ x ∈ ([(1 : ℝ), 2] : List ℝ), 0 < x := by
    intro x hx
    simp only [List.mem_cons, List.not_mem_nil, or_false] at hx
    rcases hx with h | h <;> rw [h] <;> norm_num
  have hne : ([(1 : ℝ), 2] : List ℝ) ≠ [] := by simp
  have h := C7_returns [1, 2] [1, 2] [1, 0] [0, 0] rfl rfl rfl hp hp hne
  exact ⟨⟨rfl, hp, hne⟩, ⟨h.1, h.2.2.1⟩⟩

/-- C7 counterexample: on empty inputs the outputs have length 1, not the
inputs' length 0 — `np.insert(daily_returns, 0, 0)` prepends a zero even to
the empty array. -/
theorem C7_returns_counterexample :
    (calculateReturns [] [] [] []).1.length = 1 ∧
    (calculateReturns [] [] [] []).2.length = 1 ∧
    ([] : List ℝ).length = 0 := by
  refine ⟨rfl, ?_, rfl⟩
  rfl

/-! ### C8: position legs of generate_signals -/

theorem stepSignal_leg (cfg : StrategyConfig) (hedge z : ℝ) (s : SigState)
    (h : s.p2 = -hedge * s.p1) :
    (stepSignal cfg hedge z s).p2 = -hedge * (stepSignal cfg hedge z s).p1 := by
  unfold stepSignal
  dsimp only
  split
  · split
    · show -hedge = -hedge * 1
      ring
    · split
      · show hedge = -hedge * (-1)
        ring
      · exact h
  · split
    · show (0 : ℝ) = -hedge * 0
      ring
    · exact h

theorem runSignals_leg (cfg : StrategyConfig) (hedge : ℝ) :
    ∀ (zs : List ℝ) (s : SigState), s.p2 = -hedge * s.p1 →
      ∀ q ∈ runSignals cfg hedge zs s, q.2 = -hedge * q.1 := by
  intro zs
  induction zs with
  | nil =>
    intro s _ q hq
    simp [runSignals] at hq
  | cons z rest ih =>
    intro s hs q hq
    have hrepr : runSignals cfg hedge (z :: rest) s =
        ((stepSignal cfg hedge z s).p1, (stepSignal cfg hedge z s).p2) ::
          runSignals cfg hedge rest (stepSignal cfg hedge z s) := rfl
    rw [hrepr] at hq
    rcases List.mem_cons.mp hq with h | h
    · rw [h]
      exact stepSignal_leg cfg hedge z s hs
    · exact ih (stepSignal cfg hedge z s) (stepSignal_leg cfg hedge z s hs) q h

theorem runSignals_length (cfg : StrategyConfig) (hedge : ℝ) :
    ∀ (zs : List ℝ) (s : SigState),
      (runSignals cfg hedge zs s).length = zs.length := by
  intro zs
  induction zs with
  | nil => intro s; rfl
  | cons z rest ih =>
    intro s
    have hrepr : runSignals cfg hedge (z :: rest) s =
        ((stepSignal cfg hedge z s).p1, (stepSignal cfg hedge z s).p2) ::
          runSignals cfg hedge rest (stepSignal cfg hedge z s) := rfl
    rw [hrepr, List.length_cons, ih]
    rfl

theorem calculateZscore_length (s : List ℝ) (w : ℕ) :
    (calculateZscore s w).length = s.length := by
  unfold calculateZscore
  rw [List.length_map, List.length_range]

theorem getD_replicate_self {α : Type} (m i : ℕ) (a : α) :
    (List.replicate m a).getD i a = a := by
  induction m generalizing i with
  | zero => cases i <;> rfl
  | succ k ih =>
    cases i with
    | zero => rfl
    | succ j => rw [List.replicate_succ, List.getD_cons_succ, ih]

theorem generateSignals_pos1 (cfg : StrategyConfig) (price1 price2 : List ℝ)
    (hedge : ℝ) :
    (generateSignals cfg price1 price2 hedge).2.2.1 =
      List.replicate (min cfg.lookback_period
          (((price2.zip price1).map fun q => q.1 - hedge * q.2).length)) 0 ++
        (runSignals cfg hedge
          ((calculateZscore ((price2.zip price1).map fun q => q.1 - hedge * q.2)
            cfg.lookback_period).drop cfg.lookback_period) ⟨0, 0, 0⟩).map
          fun q => q.1 := rfl

theorem generateSignals_pos2 (cfg : StrategyConfig) (price1 price2 : List ℝ)
    (hedge : ℝ) :
    (generateSignals cfg price1 price2 hedge).2.2.2 =
      List.replicate (min cfg.lookback_period
          (((price2.zip price1).map fun q => q.1 - hedge * q.2).length)) 0 ++
        (runSignals cfg hedge
          ((calculateZscore ((price2.zip price1).map fun q => q.1 - hedge * q.2)
            cfg.lookback_period).drop cfg.lookback_period) ⟨0, 0, 0⟩).map
          fun q => q.2 := rfl

theorem generateSignals_leg_all (cfg : StrategyConfig) (price1 price2 : List ℝ)
    (hedge : ℝ) (t : ℕ) :
    (generateSignals cfg price1 price2 hedge).2.2.2.getD t 0 =
      -hedge * (generateSignals cfg price1 price2 hedge).2.2.1.getD t 0 := by
  rw [generateSignals_pos1, generateSignals_pos2]
  set m := min cfg.lookback_period
    (((price2.zip price1).map fun q => q.1 - hedge * q.2).length) with hm
  set out := runSignals cfg hedge
    ((calculateZscore ((price2.zip price1).map fun q => q.1 - hedge * q.2)
      cfg.lookback_period).drop cfg.lookback_period) ⟨0, 0, 0⟩ with hout
  by_cases ht : t < m
  · rw [List.getD_append _ _ _ _ (by simpa using ht),
      List.getD_append _ _ _ _ (by simpa using ht), getD_replicate_self]
    ring
  · rw [List.getD_append_right _ _ _ _ (by simp; omega),
      List.getD_append_right _ _ _ _ (by simp; omega)]
    simp only [List.length_replicate]
    by_cases hk : t - m < out.length
    · rw [getD_map _ _ _ (by simpa using hk) 0 ((0 : ℝ), (0 : ℝ)),
        getD_map _ _ _ (by simpa using hk) 0 ((0 : ℝ), (0 : ℝ))]
      have hmem : out.getD (t - m) ((0 : ℝ), (0 : ℝ)) ∈ out := by
        rw [List.getD_eq_getElem _ _ hk]
        exact List.getElem_mem hk
      exact runSignals_leg cfg hedge _ ⟨0, 0, 0⟩ (by show (0 : ℝ) = -hedge * 0; ring)
        _ hmem
    · rw [List.getD_eq_default _ _ (by simp; omega),
        List.getD_eq_default _ _ (by simp; omega)]
      ring

/-- C8: for every output of `generate_signals`, `position2 = -hedge_ratio ·
position1` wherever `position1` is nonzero, and both position series are
zero on all indices below `lookback_period`. -/
theorem C8_position_legs (cfg : StrategyConfig) (price1 price2 : List ℝ)
    (hedge : ℝ) (t : ℕ) :
    ((generateSignals cfg price1 price2 hedge).2.2.1.getD t 0 ≠ 0 →
      (generateSignals cfg price1 price2 hedge).2.2.2.getD t 0 =
        -hedge * (generateSignals cfg price1 price2 hedge).2.2.1.getD t 0) ∧
    (t < cfg.lookback_period →
      (generateSignals cfg price1 price2 hedge).2.2.1.getD t 0 = 0 ∧
      (generateSignals cfg price1 price2 hedge).2.2.2.getD t 0 = 0) := by
  constructor
  · intro _
    exact generateSignals_leg_all cfg price1 price2 hedge t
  · intro ht
    have h1 : (generateSignals cfg price1 price2 hedge).2.2.1.getD t 0 = 0 := by
      rw [generateSignals_pos1]
      set m := min cfg.lookback_period
        (((price2.zip price1).map fun q => q.1 - hedge * q.2).length) with hm
      by_cases htm : t < m
      · rw [List.getD_append _ _ _ _ (by simpa using htm), getD_replicate_self]
      · rw [List.getD_append_right _ _ _ _ (by simp; omega)]
        apply List.getD_eq_default
        rw [List.length_map, runSignals_length, List.length_drop,
          calculateZscore_length]
        omega
    refine ⟨h1, ?_⟩
    rw [generateSignals_leg_all cfg price1 price2 hedge t, h1, mul_zero]

/-! ### Concrete signal evaluation used by the C8 witness and the C9
counterexample: the spread `[0, 1, 0]` with a two-step lookback gives a
negative z-score at index 2, which triggers entry when
`entry_threshold = -1`. -/

theorem zscoreW_repr : calculateZscore [0, 1, 0] 2 =
    [0, 0, (0 - windowMean [0, 1, 0] 2 2) / windowStd [0, 1, 0] 2 2] := rfl

theorem zscoreW_nonpos :
    (0 - windowMean [0, 1, 0] 2 2) / windowStd [0, 1, 0] 2 2 ≤ 0 := by
  apply div_nonpos_of_nonpos_of_nonneg
  · have hmw : windowMean [0, 1, 0] 2 2 = 1 / 2 := by
      unfold windowMean windowSlice
      norm_num
    rw [hmw]
    norm_num
  · unfold windowStd
    exact Real.sqrt_nonneg _

theorem stepSignalW (hedge : ℝ) :
    stepSignal cfgW hedge ((0 - windowMean [0, 1, 0] 2 2) / windowStd [0, 1, 0] 2 2)
      ⟨0, 0, 0⟩ = ⟨1, -hedge, 1⟩ := by
  unfold stepSignal
  dsimp only
  rw [if_pos ⟨rfl, rfl⟩, if_pos ?hz]
  case hz =>
    have h1 : -cfgW.entry_threshold = (1 : ℝ) := by
      show -(-1 : ℝ) = 1
      norm_num
    rw [h1]
    exact lt_of_le_of_lt zscoreW_nonpos zero_lt_one

theorem stepSignalW9 (hedge : ℝ) :
    stepSignal cfg9 hedge ((0 - windowMean [0, 1, 0] 2 2) / windowStd [0, 1, 0] 2 2)
      ⟨0, 0, 0⟩ = ⟨1, -hedge, 1⟩ := by
  unfold stepSignal
  dsimp only
  rw [if_pos ⟨rfl, rfl⟩, if_pos ?hz]
  case hz =>
    have h1 : -cfg9.entry_threshold = (1 : ℝ) := by
      show -(-1 : ℝ) = 1
      norm_num
    rw [h1]
    exact lt_of_le_of_lt zscoreW_nonpos zero_lt_one

theorem posW1 : (generateSignals cfgW [1, 1, 1] [1, 2, 1] 1).2.2.1 = [0, 0, 1] := by
  rw [generateSignals_pos1]
  have hspread : ((([(1 : ℝ), 2, 1]).zip [(1 : ℝ), 1, 1]).map fun q =>
      q.1 - 1 * q.2) = [0, 1, 0] := by
    norm_num
  rw [hspread]
  have hlb : cfgW.lookback_period = 2 := rfl
  rw [hlb, zscoreW_repr]
  have hrun : runSignals cfgW 1
      (([0, 0, (0 - windowMean [0, 1, 0] 2 2) / windowStd [0, 1, 0] 2 2] :
        List ℝ).drop 2) ⟨0, 0, 0⟩ =
      [((stepSignal cfgW 1 ((0 - windowMean [0, 1, 0] 2 2) / windowStd [0, 1, 0] 2 2)
          ⟨0, 0, 0⟩).p1,
        (stepSignal cfgW 1 ((0 - windowMean [0, 1, 0] 2 2) / windowStd [0, 1, 0] 2 2)
          ⟨0, 0, 0⟩).p2)] := rfl
  rw [hrun, stepSignalW 1]
  rfl

theorem posW2 : (generateSignals cfgW [1, 1, 1] [1, 2, 1] 1).2.2.2 = [0, 0, -1] := by
  rw [generateSignals_pos2]
  have hspread : ((([(1 : ℝ), 2, 1]).zip [(1 : ℝ), 1, 1]).map fun q =>
      q.1 - 1 * q.2) = [0, 1, 0] := by
    norm_num
  rw [hspread]
  have hlb : cfgW.lookback_period = 2 := rfl
  rw [hlb, zscoreW_repr]
  have hrun : runSignals cfgW 1
      (([0, 0, (0 - windowMean [0, 1, 0] 2 2) / windowStd [0, 1, 0] 2 2] :
        List ℝ).drop 2) ⟨0, 0, 0⟩ =
      [((stepSignal cfgW 1 ((0 - windowMean [0, 1, 0] 2 2) / windowStd [0, 1, 0] 2 2)
          ⟨0, 0, 0⟩).p1,
        (stepSignal cfgW 1 ((0 - windowMean [0, 1, 0] 2 2) / windowStd [0, 1, 0] 2 2)
          ⟨0, 0, 0⟩).p2)] := rfl
  rw [hrun, stepSignalW 1]
  rfl

theorem posW9 : (generateSignals cfg9 [1, 1, 1] [0, 1, 0] 0).2.2.1 = [0, 0, 1] := by
  rw [generateSignals_pos1]
  have hspread : ((([(0 : ℝ), 1, 0]).zip [(1 : ℝ), 1, 1]).map fun q =>
      q.1 - 0 * q.2) = [0, 1, 0] := by
    norm_num
  rw [hspread]
  have hlb : cfg9.lookback_period = 2 := rfl
  rw [hlb, zscoreW_repr]
  have hrun : runSignals cfg9 0
      (([0, 0, (0 - windowMean [0, 1, 0] 2 2) / windowStd [0, 1, 0] 2 2] :
        List ℝ).drop 2) ⟨0, 0, 0⟩ =
      [((stepSignal cfg9 0 ((0 - windowMean [0, 1, 0] 2 2) / windowStd [0, 1, 0] 2 2)
          ⟨0, 0, 0⟩).p1,
        (stepSignal cfg9 0 ((0 - windowMean [0, 1, 0] 2 2) / windowStd [0, 1, 0] 2 2)
          ⟨0, 0, 0⟩).p2)] := rfl
  rw [hrun, stepSignalW9 0]
  rfl

/-- Witness for C8: a concrete entry at index 2 with hedge ratio 1. -/
theorem C8_position_legs_witness :
    ((generateSignals cfgW [1, 1, 1] [1, 2, 1] 1).2.2.1.getD 2 0 ≠ 0 ∧
      (generateSignals cfgW [1, 1, 1] [1, 2, 1] 1).2.2.2.getD 2 0 =
        -1 * (generateSignals cfgW [1, 1, 1] [1, 2, 1] 1).2.2.1.getD 2 0) ∧
    ((0 : ℕ) < cfgW.lookback_period ∧
      (generateSignals cfgW [1, 1, 1] [1, 2, 1] 1).2.2.1.getD 0 0 = 0 ∧
      (generateSignals cfgW [1, 1, 1] [1, 2, 1] 1).2.2.2.getD 0 0 = 0) := by
  have hne : (generateSignals cfgW [1, 1, 1] [1, 2, 1] 1).2.2.1.getD 2 0 ≠ 0 := by
    rw [posW1]
    norm_num
  have hlb : (0 : ℕ) < cfgW.lookback_period := by
    show (0 : ℕ) < 2
    norm_num
  exact ⟨⟨hne, (C8_position_legs cfgW [1, 1, 1] [1, 2, 1] 1 2).1 hne⟩,
    ⟨hlb, (C8_position_legs cfgW [1, 1, 1] [1, 2, 1] 1 0).2 hlb⟩⟩

/-! ### C9: maximum holding period -/

theorem specRuns_nil : specRuns [] = [] := by
  rw [specRuns]

theorem specRuns_cons_zero (l : List ℝ) : specRuns (0 :: l) = specRuns l := by
  rw [specRuns]
  simp

theorem specRuns_cons_ne (x : ℝ) (l : List ℝ) (hx : x ≠ 0) :
    specRuns (x :: l) =
      (x :: l.takeWhile fun z => decide (z ≠ 0)) ::
        specRuns (l.dropWhile fun z => decide (z ≠ 0)) := by
  rw [specRuns]
  simp [hx]

theorem specRuns_dropWhile_mem (l : List ℝ) (run : List ℝ)
    (h : run ∈ specRuns (l.dropWhile fun z => decide (z ≠ 0))) :
    run ∈ specRuns l := by
  cases l with
  | nil => simpa using h
  | cons x t =>
    by_cases hx : x = 0
    · rw [List.dropWhile_cons_of_neg (by simp [hx])] at h
      exact h
    · rw [List.dropWhile_cons_of_pos (by simp [hx])] at h
      rw [specRuns_cons_ne x t hx]
      exact List.mem_cons_of_mem _ h

theorem stepSignal_cases (cfg : StrategyConfig) (hedge z : ℝ) (s : SigState) :
    (stepSignal cfg hedge z s = ⟨1, -hedge, 1⟩ ∧ s.p1 = 0) ∨
    (stepSignal cfg hedge z s = ⟨-1, hedge, 1⟩ ∧ s.p1 = 0) ∨
    (stepSignal cfg hedge z s = s ∧ s.p1 = 0 ∧ s.p2 = 0) ∨
    stepSignal cfg hedge z s = ⟨0, 0, 0⟩ ∨
    (stepSignal cfg hedge z s = ⟨s.p1, s.p2, s.days + 1⟩ ∧
      s.days + 1 < cfg.max_position_days) := by
  unfold stepSignal
  dsimp only
  split
  · rename_i hflat
    split
    · exact Or.inl ⟨rfl, hflat.1⟩
    · split
      · exact Or.inr (Or.inl ⟨rfl, hflat.1⟩)
      · exact Or.inr (Or.inr (Or.inl ⟨rfl, hflat⟩))
  · split
    · exact Or.inr (Or.inr (Or.inr (Or.inl rfl)))
    · rename_i hnoexit
      refine Or.inr (Or.inr (Or.inr (Or.inr ⟨rfl, ?_⟩)))
      have hC : ¬(cfg.max_position_days ≤ s.days + 1) := fun hc =>
        hnoexit (Or.inr (Or.inr hc))
      omega

theorem stepSignal_days_pos (cfg : StrategyConfig) (hedge z : ℝ) (s : SigState)
    (h : s.p1 ≠ 0 → 1 ≤ s.days) :
    (stepSignal cfg hedge z s).p1 ≠ 0 → 1 ≤ (stepSignal cfg hedge z s).days := by
  rcases stepSignal_cases cfg hedge z s with ⟨h1, _⟩ | ⟨h1, _⟩ | ⟨h1, _, _⟩ |
    h1 | ⟨h1, _⟩ <;> rw [h1] <;> intro hp
  · exact le_refl 1
  · exact le_refl 1
  · exact h hp
  · exact absurd rfl hp
  · show 1 ≤ s.days + 1
    omega

theorem runSignals_bound (cfg : StrategyConfig) (hedge : ℝ)
    (hmpd : 1 ≤ cfg.max_position_days) :
    ∀ (zs : List ℝ) (s : SigState), (s.p1 ≠ 0 → 1 ≤ s.days) →
      ((((runSignals cfg hedge zs s).map fun q => q.1).takeWhile fun v =>
          decide (v ≠ 0)).length ≤
        (if s.p1 = 0 then cfg.max_position_days
          else cfg.max_position_days - s.days)) ∧
      ∀ run ∈ specRuns ((runSignals cfg hedge zs s).map fun q => q.1),
        run.length ≤ cfg.max_position_days := by
  intro zs
  induction zs with
  | nil =>
    intro s _
    constructor
    · simp [runSignals]
    · intro run hrun
      simp only [runSignals, List.map_nil] at hrun
      rw [specRuns_nil] at hrun
      simp at hrun
  | cons z rest ih =>
    intro s hs
    have hrepr : runSignals cfg hedge (z :: rest) s =
        ((stepSignal cfg hedge z s).p1, (stepSignal cfg hedge z s).p2) ::
          runSignals cfg hedge rest (stepSignal cfg hedge z s) := rfl
    have hdays := stepSignal_days_pos cfg hedge z s hs
    have ihb := ih (stepSignal cfg hedge z s) hdays
    rw [hrepr, List.map_cons]
    by_cases hp : (stepSignal cfg hedge z s).p1 = 0
    · constructor
      · rw [hp, List.takeWhile_cons_of_neg (by simp)]
        exact Nat.zero_le _
      · intro run hrun
        rw [hp, specRuns_cons_zero] at hrun
        exact ihb.2 run hrun
    · have hd1 : 1 ≤ (stepSignal cfg hedge z s).days := hdays hp
      have hinner : (((runSignals cfg hedge rest
          (stepSignal cfg hedge z s)).map fun q => q.1).takeWhile fun v =>
            decide (v ≠ 0)).length ≤
          cfg.max_position_days - (stepSignal cfg hedge z s).days := by
        have h0 := ihb.1
        rw [if_neg hp] at h0
        exact h0
      constructor
      · rw [List.takeWhile_cons_of_pos (by simp [hp]), List.length_cons]
        rcases stepSignal_cases cfg hedge z s with ⟨hc, hflat⟩ | ⟨hc, hflat⟩ |
          ⟨hc, hc2, _⟩ | hc | ⟨hc, hc2⟩
        · rw [if_pos hflat]
          have hdd : (stepSignal cfg hedge z s).days = 1 := by rw [hc]
          omega
        · rw [if_pos hflat]
          have hdd : (stepSignal cfg hedge z s).days = 1 := by rw [hc]
          omega
        · rw [hc] at hp
          exact absurd hc2 hp
        · rw [hc] at hp
          exact absurd rfl hp
        · have hsp : ¬s.p1 = 0 := by
            rw [hc] at hp
            exact hp
          rw [if_neg hsp]
          have hdd : (stepSignal cfg hedge z s).days = s.days + 1 := by rw [hc]
          omega
      · intro run hrun
        rw [specRuns_cons_ne _ _ hp] at hrun
        rcases List.mem_cons.mp hrun with h | h
        · rw [h, List.length_cons]
          omega
        · exact ihb.2 run (specRuns_dropWhile_mem _ run h)

theorem specRuns_replicate_prefix (m : ℕ) (l : List ℝ) :
    specRuns (List.replicate m 0 ++ l) = specRuns l := by
  induction m with
  | zero => rfl
  | succ k ih => rw [List.replicate_succ, List.cons_append, specRuns_cons_zero, ih]

/-- C9 (amended): for every configuration with `max_position_days ≥ 1`, no
maximal run of consecutive nonzero `position1` entries produced by
`generate_signals` is longer than `max_position_days`: the days-held
counter starts at 1 on entry, is incremented each held step, forces an exit
once it reaches `max_position_days`, and resets to 0 on every exit. -/
theorem C9_max_holding (cfg : StrategyConfig) (price1 price2 : List ℝ)
    (hedge : ℝ) (hmpd : 1 ≤ cfg.max_position_days) :
    ∀ run ∈ specRuns ((generateSignals cfg price1 price2 hedge).2.2.1),
      run.length ≤ cfg.max_position_days := by
  intro run hrun
  rw [generateSignals_pos1, specRuns_replicate_prefix] at hrun
  exact (runSignals_bound cfg hedge hmpd _ ⟨0, 0, 0⟩
    (fun h => absurd rfl h)).2 run hrun

/-- Witness for the amended C9: a concrete one-step run within the bound. -/
theorem C9_max_holding_witness :
    1 ≤ cfgW.max_position_days ∧
    ([(1 : ℝ)] ∈ specRuns ((generateSignals cfgW [1, 1, 1] [1, 2, 1] 1).2.2.1) ∧
      ([(1 : ℝ)]).length ≤ cfgW.max_position_days) := by
  have hm : 1 ≤ cfgW.max_position_days := by
    show (1 : ℕ) ≤ 20
    norm_num
  have hruns : specRuns ((generateSignals cfgW [1, 1, 1] [1, 2, 1] 1).2.2.1) =
      [[1]] := by
    rw [posW1, specRuns_cons_zero, specRuns_cons_zero,
      specRuns_cons_ne _ _ (by norm_num)]
    simp [specRuns_nil]
  have hmem : [(1 : ℝ)] ∈
      specRuns ((generateSignals cfgW [1, 1, 1] [1, 2, 1] 1).2.2.1) := by
    rw [hruns]
    simp
  exact ⟨hm, hmem, C9_max_holding cfgW [1, 1, 1] [1, 2, 1] 1 hm [1] hmem⟩

/-- C9 counterexample: with `max_position_days = 0` an entry still happens
(the entry branch performs no holding-period check), so the position series
contains a maximal nonzero run of length 1 > 0. -/
theorem C9_max_holding_counterexample :
    ¬ ∀ run ∈ specRuns ((generateSignals cfg9 [1, 1, 1] [0, 1, 0] 0).2.2.1),
        run.length ≤ cfg9.max_position_days := by
  intro hall
  have hruns : specRuns ((generateSignals cfg9 [1, 1, 1] [0, 1, 0] 0).2.2.1) =
      [[1]] := by
    rw [posW9, specRuns_cons_zero, specRuns_cons_zero,
      specRuns_cons_ne _ _ (by norm_num)]
    simp [specRuns_nil]
  have h := hall [1] (by rw [hruns]; simp)
  have h0 : (1 : ℕ) ≤ 0 := h
  omega

/-! ### C6: trade segmentation -/

theorem whereIdx_cons (c : ℤ) (t : List ℤ) (v : ℤ) :
    whereIdx (c :: t) v =
      (if c = v then [0] else []) ++ (whereIdx t v).map fun i => i + 1 := by
  unfold whereIdx
  rw [List.length_cons, List.range_succ_eq_map, List.filter_cons]
  have hmap : (((List.range t.length).map Nat.succ).filter fun i =>
      decide ((c :: t).getD i 0 = v)) =
      ((List.range t.length).filter fun i => decide (t.getD i 0 = v)).map
        Nat.succ := by
    rw [List.filter_map]
    rfl
  have hsucc : ((List.range t.length).filter fun i =>
      decide (t.getD i 0 = v)).map Nat.succ =
      ((List.range t.length).filter fun i => decide (t.getD i 0 = v)).map
        fun i => i + 1 := rfl
  by_cases hc : c = v
  · rw [if_pos (by simpa using hc), if_pos hc, hmap, hsucc]
    rfl
  · rw [if_neg (by simpa using hc), if_neg hc, hmap, hsucc]
    rfl

theorem nonzeroIndicator_cons (x : ℝ) (l : List ℝ) :
    nonzeroIndicator (x :: l) =
      (if x ≠ 0 then 1 else 0) :: nonzeroIndicator l := rfl

theorem diffL_cons_cons (a b : ℤ) (t : List ℤ) :
    diffL (a :: b :: t) = (b - a) :: diffL (b :: t) := rfl

theorem tradeStarts_cons (x : ℝ) (l : List ℝ) :
    tradeStarts (x :: l) =
      (if x = 0 ∧ l.getD 0 0 ≠ 0 ∧ l ≠ [] then [1] else []) ++
        (tradeStarts l).map fun i => i + 1 := by
  cases l with
  | nil =>
    rw [if_neg (by simp)]
    rfl
  | cons y u =>
    unfold tradeStarts
    rw [nonzeroIndicator_cons x (y :: u), nonzeroIndicator_cons y u,
      diffL_cons_cons, whereIdx_cons, List.map_append]
    have htail : ((whereIdx (diffL ((if y ≠ 0 then 1 else 0) ::
        nonzeroIndicator u)) 1).map fun i => i + 1).map (fun i => i + 1) =
        ((whereIdx (diffL (nonzeroIndicator (y :: u))) 1).map
          (fun i => i + 1)).map fun i => i + 1 := rfl
    rw [htail]
    congr 1
    by_cases hx : x = 0 <;> by_cases hy : y = 0 <;> norm_num [hx, hy] <;>
      rw [if_neg (List.cons_ne_nil _ _)]

theorem tradeEnds0_cons (x : ℝ) (l : List ℝ) :
    tradeEnds0 (x :: l) =
      (if x ≠ 0 ∧ l.getD 0 0 = 0 ∧ l ≠ [] then [1] else []) ++
        (tradeEnds0 l).map fun i => i + 1 := by
  cases l with
  | nil =>
    rw [if_neg (by simp)]
    rfl
  | cons y u =>
    unfold tradeEnds0
    rw [nonzeroIndicator_cons x (y :: u), nonzeroIndicator_cons y u,
      diffL_cons_cons, whereIdx_cons, List.map_append]
    have htail : ((whereIdx (diffL ((if y ≠ 0 then 1 else 0) ::
        nonzeroIndicator u)) (-1)).map fun i => i + 1).map (fun i => i + 1) =
        ((whereIdx (diffL (nonzeroIndicator (y :: u))) (-1)).map
          (fun i => i + 1)).map fun i => i + 1 := rfl
    rw [htail]
    congr 1
    by_cases hx : x = 0 <;> by_cases hy : y = 0 <;> norm_num [hx, hy] <;>
      rw [if_neg (List.cons_ne_nil _ _)]

theorem tradeStarts_cons_ne (x : ℝ) (l : List ℝ) (hx : x ≠ 0) :
    tradeStarts (x :: l) = (tradeStarts l).map fun i => i + 1 := by
  rw [tradeStarts_cons, if_neg (by tauto), List.nil_append]

theorem tradeStarts_append_run (r : List ℝ) (hr : ∀ a ∈ r, a ≠ 0)
    (rest : List ℝ) :
    tradeStarts (r ++ rest) = (tradeStarts rest).map fun i => i + r.length := by
  induction r with
  | nil => simp
  | cons a r' ih =>
    rw [List.cons_append, tradeStarts_cons_ne a _ (hr a (by simp)),
      ih fun b hb => hr b (by simp [hb]), List.map_map]
    rfl

theorem tradeEnds0_append_run (r : List ℝ) (hrne : r ≠ [])
    (hr : ∀ a ∈ r, a ≠ 0) (rest : List ℝ)
    (hrest : rest = [] ∨ rest.getD 0 0 = 0) :
    tradeEnds0 (r ++ rest) =
      (if rest = [] then [] else [r.length]) ++
        (tradeEnds0 rest).map fun i => i + r.length := by
  induction r with
  | nil => exact absurd rfl hrne
  | cons a r' ih =>
    cases r' with
    | nil =>
      rw [List.cons_append, List.nil_append, tradeEnds0_cons]
      by_cases hre : rest = []
      · subst hre
        rw [if_neg (by simp), if_pos rfl]
        rfl
      · rw [if_pos ⟨hr a (by simp), hrest.resolve_left hre, hre⟩, if_neg hre]
        have h1 : (tradeEnds0 rest).map (fun i => i + 1) =
            (tradeEnds0 rest).map fun i => i + ([a] : List ℝ).length := rfl
        rw [h1]
        rfl
    | cons b r'' =>
      have hb : b ≠ 0 := hr b (by simp)
      rw [List.cons_append, tradeEnds0_cons]
      have hcond : ¬(a ≠ 0 ∧ ((b :: r'') ++ rest).getD 0 0 = 0 ∧
          (b :: r'') ++ rest ≠ []) := by
        intro hc
        exact hb hc.2.1
      rw [if_neg hcond, List.nil_append,
        ih (List.cons_ne_nil _ _) (fun c hc => hr c (List.mem_cons_of_mem a hc)),
        List.map_append, List.map_map]
      by_cases hre : rest = []
      · subst hre
        rw [if_pos rfl, if_pos rfl]
        rfl
      · rw [if_neg hre, if_neg hre]
        rfl

theorem takeWhile_mem_ne (u : List ℝ) (a : ℝ)
    (h : a ∈ u.takeWhile fun z => decide (z ≠ 0)) : a ≠ 0 := by
  have := List.mem_takeWhile_imp h
  simpa using this

theorem dropWhile_head_zero (u : List ℝ) :
    (u.dropWhile fun z => decide (z ≠ 0)) = [] ∨
      (u.dropWhile fun z => decide (z ≠ 0)).getD 0 0 = 0 := by
  induction u with
  | nil => exact Or.inl rfl
  | cons c cs ih =>
    rw [List.dropWhile_cons]
    split
    · exact ih
    · rename_i hc
      right
      simp only [decide_eq_true_eq, not_not] at hc
      exact hc

theorem takeWhile_append_of_all (r rest : List ℝ) (h : ∀ a ∈ r, a ≠ 0)
    (hrest : rest = [] ∨ rest.getD 0 0 = 0) :
    (r ++ rest).takeWhile (fun z => decide (z ≠ 0)) = r ∧
    (r ++ rest).dropWhile (fun z => decide (z ≠ 0)) = rest := by
  induction r with
  | nil =>
    simp only [List.nil_append]
    rcases hrest with h1 | h1
    · subst h1
      exact ⟨rfl, rfl⟩
    · cases rest with
      | nil => exact ⟨rfl, rfl⟩
      | cons c cs =>
        have hc : c = 0 := h1
        constructor
        · rw [List.takeWhile_cons_of_neg (by simp [hc])]
        · rw [List.dropWhile_cons_of_neg (by simp [hc])]
  | cons a r' ih =>
    have ha : a ≠ 0 := h a (by simp)
    rw [List.cons_append]
    obtain ⟨h1, h2⟩ := ih fun b hb => h b (by simp [hb])
    constructor
    · rw [List.takeWhile_cons_of_pos (by simp [ha]), h1]
    · rw [List.dropWhile_cons_of_pos (by simp [ha]), h2]

theorem specRuns_zero_run (r rest : List ℝ) (hrne : r ≠ [])
    (hrnz : ∀ a ∈ r, a ≠ 0) (hrest0 : rest = [] ∨ rest.getD 0 0 = 0) :
    specRuns ((0 : ℝ) :: (r ++ rest)) = r :: specRuns rest := by
  rw [specRuns_cons_zero]
  cases r with
  | nil => exact absurd rfl hrne
  | cons a r' =>
    obtain ⟨h1, h2⟩ := takeWhile_append_of_all r' rest
      (fun b hb => hrnz b (by simp [hb])) hrest0
    rw [List.cons_append, specRuns_cons_ne _ _ (hrnz a (by simp)), h1, h2]

theorem tradeReturns_nil : tradeReturns [] = [] := rfl

theorem tradeReturns_zero_run (r rest : List ℝ) (hrne : r ≠ [])
    (hrnz : ∀ a ∈ r, a ≠ 0) (hrest0 : rest = [] ∨ rest.getD 0 0 = 0) :
    tradeReturns ((0 : ℝ) :: (r ++ rest)) =
      ((r.map fun v => 1 + v).prod - 1) :: tradeReturns rest := by
  have hS : tradeStarts ((0 : ℝ) :: (r ++ rest)) =
      1 :: ((tradeStarts rest).map fun i => i + (r.length + 1)) := by
    rw [tradeStarts_cons]
    have hhead : (r ++ rest).getD 0 0 ≠ 0 := by
      cases r with
      | nil => exact absurd rfl hrne
      | cons a r' => exact hrnz a (by simp)
    have hne2 : r ++ rest ≠ [] := by
      cases r with
      | nil => exact absurd rfl hrne
      | cons a r' => simp
    rw [if_pos ⟨rfl, hhead, hne2⟩, tradeStarts_append_run r hrnz rest,
      List.map_map]
    rfl
  have hE0 : tradeEnds0 ((0 : ℝ) :: (r ++ rest)) =
      (if rest = [] then [] else [r.length + 1]) ++
        ((tradeEnds0 rest).map fun i => i + (r.length + 1)) := by
    rw [tradeEnds0_cons, if_neg (by simp), List.nil_append,
      tradeEnds0_append_run r hrne hrnz rest hrest0, List.map_append,
      List.map_map]
    by_cases hre : rest = []
    · rw [if_pos hre, if_pos hre]
      rfl
    · rw [if_neg hre, if_neg hre]
      rfl
  by_cases hre : rest = []
  · subst hre
    rw [List.append_nil] at hS hE0 ⊢
    have hS1 : tradeStarts ((0 : ℝ) :: r) = [1] := by
      rw [hS]
      rfl
    have hE0n : tradeEnds0 ((0 : ℝ) :: r) = [] := by
      rw [hE0, if_pos rfl]
      rfl
    have hE1 : tradeEnds ((0 : ℝ) :: r) = [((0 : ℝ) :: r).length - 1] := by
      unfold tradeEnds
      rw [hS1, hE0n, if_pos (by norm_num)]
      rfl
    have hslice : (((0 : ℝ) :: r).take (((0 : ℝ) :: r).length - 1 + 1)).drop 1
        = r := by
      have h1 : ((0 : ℝ) :: r).length - 1 + 1 = ((0 : ℝ) :: r).length := rfl
      rw [h1, List.take_length]
      rfl
    have ht0 : tradeStarts ([] : List ℝ) = [] := rfl
    have ht1 : tradeEnds ([] : List ℝ) = [] := rfl
    unfold tradeReturns
    rw [hS1, hE1, ht0, ht1]
    simp only [List.zip_cons_cons, List.zip_nil_right, List.zip_nil_left,
      List.map_cons, List.map_nil]
    congr 1
    rw [hslice]
  · obtain ⟨c, cs, rfl⟩ : ∃ c cs, rest = c :: cs := by
      cases rest with
      | nil => exact absurd rfl hre
      | cons c cs => exact ⟨c, cs, rfl⟩
    have hc0 : c = 0 := hrest0.resolve_left hre
    subst hc0
    have hE : tradeEnds ((0 : ℝ) :: (r ++ 0 :: cs)) =
        (r.length + 1) :: ((tradeEnds (0 :: cs)).map fun i =>
          i + (r.length + 1)) := by
      by_cases hcnd : (tradeEnds0 ((0 : ℝ) :: cs)).length <
          (tradeStarts ((0 : ℝ) :: cs)).length
      · have hout : (tradeEnds0 ((0 : ℝ) :: (r ++ 0 :: cs))).length <
            (tradeStarts ((0 : ℝ) :: (r ++ 0 :: cs))).length := by
          rw [hS, hE0, if_neg hre]
          simp only [List.length_cons, List.length_append, List.length_map,
            List.length_nil]
          omega
        have hlen : ((0 : ℝ) :: (r ++ 0 :: cs)).length - 1 =
            ((0 : ℝ) :: cs).length - 1 + (r.length + 1) := by
          simp only [List.length_cons, List.length_append]
          omega
        unfold tradeEnds
        rw [if_pos hout, if_pos hcnd, hE0, if_neg hre, List.map_append, hlen]
        rfl
      · have hout : ¬(tradeEnds0 ((0 : ℝ) :: (r ++ 0 :: cs))).length <
            (tradeStarts ((0 : ℝ) :: (r ++ 0 :: cs))).length := by
          rw [hS, hE0, if_neg hre]
          simp only [List.length_cons, List.length_append, List.length_map,
            List.length_nil]
          omega
        unfold tradeEnds
        rw [if_neg hout, if_neg hcnd, hE0, if_neg hre]
        rfl
    unfold tradeReturns
    rw [hS, hE, List.zip_cons_cons, List.zip_map, List.map_cons, List.map_map]
    congr 1
    · dsimp only
      rw [List.take_succ_cons, List.drop_succ_cons,
        List.take_append_eq_append_take, List.take_all_of_le (by omega)]
      have h1 : r.length + 1 - r.length = 1 := by omega
      rw [h1]
      have h2 : ((0 : ℝ) :: cs).take 1 = [0] := rfl
      rw [h2, List.drop_zero, List.map_append, List.prod_append]
      norm_num
    · apply List.map_congr_left
      intro q _
      dsimp only [Function.comp_apply]
      simp only [Prod.map_fst, Prod.map_snd]
      have hpre : (0 : ℝ) :: (r ++ 0 :: cs) = ((0 : ℝ) :: r) ++ 0 :: cs := rfl
      rw [hpre, List.take_append_eq_append_take,
        List.take_all_of_le (by simp only [List.length_cons]; omega),
        List.drop_append_eq_append_drop,
        List.drop_eq_nil_of_le (by simp only [List.length_cons]; omega),
        List.nil_append]
      have h2 : q.2 + (r.length + 1) + 1 - ((0 : ℝ) :: r).length = q.2 + 1 := by
        simp only [List.length_cons]
        omega
      have h3 : q.1 + (r.length + 1) - ((0 : ℝ) :: r).length = q.1 := by
        simp only [List.length_cons]
        omega
      rw [h2, h3]

theorem tradeReturns_decomp_aux :
    ∀ (n : ℕ) (l : List ℝ), l.length ≤ n → l.getD 0 0 = 0 →
      tradeReturns l =
        (specRuns l).map fun run => ((run.map fun v => 1 + v).prod - 1) := by
  intro n
  induction n with
  | zero =>
    intro l hl _
    have hnil : l = [] := List.eq_nil_of_length_eq_zero (by omega)
    subst hnil
    rw [specRuns_nil]
    rfl
  | succ m ih =>
    intro l hl h0
    cases l with
    | nil =>
      rw [specRuns_nil]
      rfl
    | cons x t =>
      have hx : x = 0 := h0
      subst hx
      cases t with
      | nil =>
        rw [specRuns_cons_zero, specRuns_nil]
        rfl
      | cons y u =>
        by_cases hy : y = 0
        · subst hy
          have hS : tradeStarts ((0 : ℝ) :: 0 :: u) =
              (tradeStarts (0 :: u)).map fun i => i + 1 := by
            rw [tradeStarts_cons, if_neg (by simp), List.nil_append]
          have hE0 : tradeEnds0 ((0 : ℝ) :: 0 :: u) =
              (tradeEnds0 (0 :: u)).map fun i => i + 1 := by
            rw [tradeEnds0_cons, if_neg (by simp), List.nil_append]
          have hE : tradeEnds ((0 : ℝ) :: 0 :: u) =
              (tradeEnds (0 :: u)).map fun i => i + 1 := by
            by_cases hcnd : (tradeEnds0 ((0 : ℝ) :: u)).length <
                (tradeStarts ((0 : ℝ) :: u)).length
            · have hout : (tradeEnds0 ((0 : ℝ) :: 0 :: u)).length <
                  (tradeStarts ((0 : ℝ) :: 0 :: u)).length := by
                rw [hS, hE0, List.length_map, List.length_map]
                exact hcnd
              have hlen : ((0 : ℝ) :: 0 :: u).length - 1 =
                  (((0 : ℝ) :: u).length - 1) + 1 := by
                simp only [List.length_cons]
                omega
              unfold tradeEnds
              rw [if_pos hout, if_pos hcnd, hE0, List.map_append, hlen]
              rfl
            · have hout : ¬(tradeEnds0 ((0 : ℝ) :: 0 :: u)).length <
                  (tradeStarts ((0 : ℝ) :: 0 :: u)).length := by
                rw [hS, hE0, List.length_map, List.length_map]
                exact hcnd
              unfold tradeEnds
              rw [if_neg hout, if_neg hcnd, hE0]
          have hstep : tradeReturns ((0 : ℝ) :: 0 :: u) =
              tradeReturns ((0 : ℝ) :: u) := by
            unfold tradeReturns
            rw [hS, hE, List.zip_map, List.map_map]
            apply List.map_congr_left
            intro q _
            dsimp only [Function.comp_apply]
            simp only [Prod.map_fst, Prod.map_snd]
            rw [List.take_succ_cons, List.drop_succ_cons]
          rw [hstep, specRuns_cons_zero]
          exact ih ((0 : ℝ) :: u)
            (by simp only [List.length_cons] at hl ⊢; omega) rfl
        · have hrnz : ∀ a ∈ (y :: u.takeWhile fun z => decide (z ≠ 0)),
              a ≠ 0 := by
            intro a ha
            rcases List.mem_cons.mp ha with h | h
            · rw [h]
              exact hy
            · exact takeWhile_mem_ne u a h
          have hrepr : ((0 : ℝ) :: y :: u) =
              (0 : ℝ) :: ((y :: u.takeWhile fun z => decide (z ≠ 0)) ++
                (u.dropWhile fun z => decide (z ≠ 0))) := by
            rw [List.cons_append, List.takeWhile_append_dropWhile]
          rw [hrepr,
            tradeReturns_zero_run _ _ (List.cons_ne_nil _ _) hrnz
              (dropWhile_head_zero u),
            specRuns_zero_run _ _ (List.cons_ne_nil _ _) hrnz
              (dropWhile_head_zero u),
            List.map_cons]
          congr 1
          apply ih
          · have h1 : (u.dropWhile fun z => decide (z ≠ 0)).length ≤ u.length :=
              ((List.dropWhile_suffix _).sublist).length_le
            simp only [List.length_cons] at hl
            omega
          · rcases dropWhile_head_zero u with h | h
            · rw [h]
              rfl
            · exact h

theorem tradeReturns_decomp (l : List ℝ) (h0 : l.getD 0 0 = 0) :
    tradeReturns l =
      (specRuns l).map fun run => ((run.map fun v => 1 + v).prod - 1) :=
  tradeReturns_decomp_aux l.length l (le_refl _) h0

/-- C6 (amended): for every return series whose first entry is zero, the
reported trade count equals the number of maximal contiguous runs of
nonzero daily returns and the win rate equals the fraction of those runs
whose compounded `(1+r)` product minus 1 is strictly positive (zero-net
runs count as non-winning); a run starting at index 0 is not detected. -/
theorem C6_trade_segmentation (r : List ℝ) (h0 : r.getD 0 0 = 0) :
    (calculatePerformanceMetrics r).num_trades = specNumTrades r ∧
    (calculatePerformanceMetrics r).win_rate = specWinRate r := by
  have hdec := tradeReturns_decomp r h0
  constructor
  · show (tradeReturns r).length = (specRuns r).length
    rw [hdec, List.length_map]
  · show winRate r = specWinRate r
    unfold winRate specWinRate
    dsimp only
    rw [hdec]
    by_cases hsr : specRuns r = []
    · rw [hsr, List.map_nil, if_pos rfl, if_pos rfl]
    · rw [if_neg (by simp [hsr]), if_neg hsr, List.map_map, List.length_map]
      rfl

/-- Witness for the amended C6 on the concrete series `[0, 1, 0]`. -/
theorem C6_trade_segmentation_witness :
    (([(0 : ℝ), 1, 0] : List ℝ).getD 0 0 = 0) ∧
    ((calculatePerformanceMetrics [(0 : ℝ), 1, 0]).num_trades =
        specNumTrades [(0 : ℝ), 1, 0] ∧
      (calculatePerformanceMetrics [(0 : ℝ), 1, 0]).win_rate =
        specWinRate [(0 : ℝ), 1, 0]) :=
  ⟨rfl, C6_trade_segmentation [(0 : ℝ), 1, 0] rfl⟩

/-- C6 counterexample: on the series `[1, 0, 0]` there is one maximal run of
nonzero returns (starting at index 0), but the `np.diff`-based segmentation
only detects 0 → 1 transitions, so the reported trade count is 0. -/
theorem C6_trade_segmentation_counterexample :
    (calculatePerformanceMetrics [(1 : ℝ), 0, 0]).num_trades = 0 ∧
    specNumTrades [(1 : ℝ), 0, 0] = 1 := by
  constructor
  · show (tradeReturns [(1 : ℝ), 0, 0]).length = 0
    have hind : nonzeroIndicator [(1 : ℝ), 0, 0] = [1, 0, 0] := by
      unfold nonzeroIndicator
      norm_num
    have hstarts : tradeStarts [(1 : ℝ), 0, 0] = [] := by
      unfold tradeStarts
      rw [hind]
      rfl
    unfold tradeReturns
    rw [hstarts]
    rfl
  · show (specRuns [(1 : ℝ), 0, 0]).length = 1
    rw [specRuns_cons_ne _ _ (by norm_num)]
    have h1 : ([(0 : ℝ), 0] : List ℝ).takeWhile (fun z => decide (z ≠ 0)) =
        [] := by
      rw [List.takeWhile_cons_of_neg (by simp)]
    have h2 : ([(0 : ℝ), 0] : List ℝ).dropWhile (fun z => decide (z ≠ 0)) =
        [0, 0] := by
      rw [List.dropWhile_cons_of_neg (by simp)]
    rw [h1, h2, specRuns_cons_zero, specRuns_cons_zero, specRuns_nil]
    rfl

end StatArb
